import Mathlib

/-!
Verification development for the ProtoLens region-tracking protobuf decoder
(`src/utils/protoDecoder.ts`, data model in `src/types.ts`).

The decoder walks a byte buffer with a single shared cursor (a
`protobuf.Reader`), resolves each tag against a schema type, builds a decoded
value tree and records one `ByteRegion` per decoded field occurrence.  Two
query functions (`findRegionByByte`, `findRegionsByPath`) operate on the flat
region list.

The embedding below translates that code into Lean:
* JS values stored in the decoded tree become the `PValue` inductive;
  JS objects become association lists in insertion order.
* The `protobuf.Reader` (an external npm dependency of the repository) is
  modelled by `ReaderState` together with one Lean function per reader
  method used by the decoder, following the protobuf wire format it
  implements (base-128 varints, little-endian fixed reads, length-delimited
  blocks), with out-of-range reads failing.  Floating-point payloads
  (`double`/`float`) are kept as raw bytes: only their byte consumption
  matters here.
* JS exceptions become `Except String`; `Array.prototype.sort` (guaranteed
  stable by the ECMAScript specification) becomes a stable insertion sort.
* The unbounded `while` loops of the source become fuel-indexed recursion;
  the top-level entry point supplies `buffer.length + 1` fuel, which is
  enough because every loop iteration consumes at least one byte.
-/

/-- Decoded JS values: numbers (all protobuf integer kinds), strings, bools,
byte slices, arrays (repeated fields), objects (messages, as association
lists in insertion order), plus JS `null` and the decoder's two string
placeholders which are ordinary `vStr` values. -/
inductive PValue where
  | vNull : PValue
  | vInt (n : Int) : PValue
  | vBool (b : Bool) : PValue
  | vStr (s : String) : PValue
  | vBytes (bs : List Nat) : PValue
  | vArr (xs : List PValue) : PValue
  | vMsg (fs : List (String × PValue)) : PValue
deriving Repr

/-- A decoded message object (`targetObj` in the source): JS object modelled
as an association list in property-insertion order. -/
abbrev Obj := List (String × PValue)

/-- `src/types.ts` `ByteRegion`: the byte span, path, decoded value, type
label, wire type, field name and nesting depth of one decoded field
occurrence. -/
structure ByteRegion where
  start : Nat
  «end» : Nat
  path : String
  value : PValue
  type : String
  wireType : Nat
  fieldName : String
  depth : Nat
deriving Repr

mutual
/-- A `protobuf.Type`: message name plus field descriptors in declaration
order (the source iterates `currentType.fields` in insertion order). -/
inductive PType where
  | mk (name : String) (fields : List PField) : PType

/-- A `protobuf.Field` descriptor: numeric id, name, semantic type name and
the `repeated`/`packed`/`map` flags, plus the resolved reference used by
`field.resolvedType` (`instanceof protobuf.Type` / `instanceof
protobuf.Enum`). -/
inductive PField where
  | mk (id : Nat) (name : String) (type : String) (repeated : Bool)
      (packed : Bool) (map : Bool) (resolvedType : PResolved) : PField

/-- `field.resolvedType`: nothing (scalar), a nested message type, or an
enum. -/
inductive PResolved where
  | scalar : PResolved
  | msg (t : PType) : PResolved
  | enum : PResolved
end

def PType.name : PType → String
  | .mk n _ => n

def PType.fields : PType → List PField
  | .mk _ fs => fs

def PField.id : PField → Nat
  | .mk i _ _ _ _ _ _ => i

def PField.name : PField → String
  | .mk _ n _ _ _ _ _ => n

def PField.type : PField → String
  | .mk _ _ t _ _ _ _ => t

def PField.repeated : PField → Bool
  | .mk _ _ _ r _ _ _ => r

def PField.packed : PField → Bool
  | .mk _ _ _ _ p _ _ => p

def PField.map : PField → Bool
  | .mk _ _ _ _ _ m _ => m

def PField.resolvedType : PField → PResolved
  | .mk _ _ _ _ _ _ r => r

/-! ## The reader (model of the `protobuf.Reader` methods used by the
decoder): one cursor over one immutable byte buffer. -/

/-- `protobuf.Reader.create(buffer)` state: the byte buffer and the cursor
`pos`; `len` is the buffer length. -/
structure ReaderState where
  buf : List Nat
  pos : Nat
deriving Repr

def ReaderState.len (st : ReaderState) : Nat := st.buf.length

/-- Base-128 varint read: consume continuation-flagged bytes (at most 10),
accumulating little-endian 7-bit groups; out-of-range reads fail. -/
def readVarintAux : Nat → ReaderState → Nat → Nat → Except String (Nat × ReaderState)
  | 0, _, _, _ => .error "varint exceeds 10 bytes"
  | count + 1, st, shift, acc =>
    if st.pos < st.buf.length then
      let b := st.buf.getD st.pos 0
      let st' : ReaderState := ⟨st.buf, st.pos + 1⟩
      if b < 128 then .ok (acc + b * 2 ^ shift, st')
      else readVarintAux count st' (shift + 7) (acc + (b - 128) * 2 ^ shift)
    else .error "index out of range"

def readVarint (st : ReaderState) : Except String (Nat × ReaderState) :=
  readVarintAux 10 st 0 0

/-- `reader.uint32()`: varint truncated to the low 32 bits. -/
def readUint32 (st : ReaderState) : Except String (Nat × ReaderState) := do
  let (v, st') ← readVarint st
  pure (v % 2 ^ 32, st')

/-- Two's-complement reinterpretation of a `w`-bit unsigned value. -/
def toSigned (w v : Nat) : Int :=
  if v < 2 ^ (w - 1) then (v : Int) else (v : Int) - 2 ^ w

/-- Zigzag decoding of a `w`-bit unsigned value (`sint32`/`sint64`). -/
def zigzag (v : Nat) : Int :=
  if v % 2 = 0 then (v / 2 : Nat) else -((v / 2 : Nat) : Int) - 1

/-- `reader.int32()`: varint, low 32 bits, reinterpreted as signed. -/
def readInt32 (st : ReaderState) : Except String (Int × ReaderState) := do
  let (v, st') ← readVarint st
  pure (toSigned 32 (v % 2 ^ 32), st')

/-- Read `n` raw bytes (fixed-width reads and length-delimited payloads);
fails when fewer than `n` bytes remain, as the reader methods do. -/
def readRaw (n : Nat) (st : ReaderState) : Except String (List Nat × ReaderState) :=
  if st.pos + n ≤ st.buf.length then
    .ok ((st.buf.drop st.pos).take n, ⟨st.buf, st.pos + n⟩)
  else .error "index out of range"

/-- Little-endian value of a byte list. -/
def leValue : List Nat → Nat
  | [] => 0
  | b :: rest => b + 256 * leValue rest

/-- UTF-8 decoding of a byte list (the `utf8.read` step of
`reader.string()`); invalid code points collapse to `Char.ofNat`'s default. -/
def utf8Decode : List Nat → List Char
  | [] => []
  | b :: rest =>
    if b < 0x80 then Char.ofNat b :: utf8Decode rest
    else if b < 0xE0 then
      match rest with
      | b2 :: rest' => Char.ofNat ((b % 32) * 64 + b2 % 64) :: utf8Decode rest'
      | [] => [Char.ofNat 0xFFFD]
    else if b < 0xF0 then
      match rest with
      | b2 :: b3 :: rest' =>
          Char.ofNat ((b % 16) * 4096 + (b2 % 64) * 64 + b3 % 64) :: utf8Decode rest'
      | _ => [Char.ofNat 0xFFFD]
    else
      match rest with
      | b2 :: b3 :: b4 :: rest' =>
          Char.ofNat ((b % 8) * 262144 + (b2 % 64) * 4096 + (b3 % 64) * 64 + b4 % 64)
            :: utf8Decode rest'
      | _ => [Char.ofNat 0xFFFD]

/-- The semantic type names that are read methods on `protobuf.Reader`
(the `typeof reader[readMethod] === 'function'` check of the source). -/
def hasReadMethod (t : String) : Bool :=
  t == "double" || t == "float" || t == "int32" || t == "uint32" || t == "sint32" ||
  t == "fixed32" || t == "sfixed32" || t == "int64" || t == "uint64" || t == "sint64" ||
  t == "fixed64" || t == "sfixed64" || t == "bool" || t == "string" || t == "bytes"

/-- `reader[typeName]()`: dispatch a primitive read by semantic type name.
A name that is not a reader method fails, modelling the JS `TypeError`
raised when the source calls `(reader as any)[field.type]()` on a
non-function (the packed-element path does exactly that). -/
def callReadMethod (t : String) (st : ReaderState) : Except String (PValue × ReaderState) :=
  match t with
  | "double" => do let (bs, st') ← readRaw 8 st; pure (.vBytes bs, st')
  | "float" => do let (bs, st') ← readRaw 4 st; pure (.vBytes bs, st')
  | "int32" => do let (v, st') ← readVarint st; pure (.vInt (toSigned 32 (v % 2 ^ 32)), st')
  | "uint32" => do let (v, st') ← readVarint st; pure (.vInt ((v % 2 ^ 32 : Nat) : Int), st')
  | "sint32" => do let (v, st') ← readVarint st; pure (.vInt (zigzag (v % 2 ^ 32)), st')
  | "fixed32" => do let (bs, st') ← readRaw 4 st; pure (.vInt (leValue bs), st')
  | "sfixed32" => do let (bs, st') ← readRaw 4 st; pure (.vInt (toSigned 32 (leValue bs)), st')
  | "int64" => do let (v, st') ← readVarint st; pure (.vInt (toSigned 64 (v % 2 ^ 64)), st')
  | "uint64" => do let (v, st') ← readVarint st; pure (.vInt ((v % 2 ^ 64 : Nat) : Int), st')
  | "sint64" => do let (v, st') ← readVarint st; pure (.vInt (zigzag (v % 2 ^ 64)), st')
  | "fixed64" => do let (bs, st') ← readRaw 8 st; pure (.vInt (leValue bs), st')
  | "sfixed64" => do let (bs, st') ← readRaw 8 st; pure (.vInt (toSigned 64 (leValue bs)), st')
  | "bool" => do let (v, st') ← readVarint st; pure (.vBool (decide (v % 2 ^ 32 ≠ 0)), st')
  | "string" => do
      let (n, st') ← readUint32 st
      let (bs, st'') ← readRaw n st'
      pure (.vStr (String.mk (utf8Decode bs)), st'')
  | "bytes" => do
      let (n, st') ← readUint32 st
      let (bs, st'') ← readRaw n st'
      pure (.vBytes bs, st'')
  | _ => .error "reader method is not a function"

/-- `reader.skip()` with no argument: skip one varint (no 10-byte cap in the
reader's skip; fuel is the remaining buffer length, which bounds the loop). -/
def skipVarintAux : Nat → ReaderState → Except String ReaderState
  | 0, _ => .error "out of fuel"
  | fuel + 1, st =>
    if st.pos < st.buf.length then
      let b := st.buf.getD st.pos 0
      let st' : ReaderState := ⟨st.buf, st.pos + 1⟩
      if b < 128 then .ok st' else skipVarintAux fuel st'
    else .error "index out of range"

def skipVarint (st : ReaderState) : Except String ReaderState :=
  skipVarintAux (st.buf.length + 1) st

/-- `reader.skip(n)`: advance the cursor `n` bytes, failing out of range. -/
def skipRaw (n : Nat) (st : ReaderState) : Except String ReaderState :=
  if st.pos + n ≤ st.buf.length then .ok ⟨st.buf, st.pos + n⟩
  else .error "index out of range"

/-- `reader.skipType(wireType)`: varint (0), 8 bytes (1), length-delimited
(2), nested groups (3, skipping tagged values until an end-group tag), 4
bytes (5); anything else is an invalid wire type.  Fuel bounds the group
recursion. -/
def skipType : Nat → Nat → ReaderState → Except String ReaderState
  | 0, _, _ => .error "out of fuel"
  | fuel + 1, wireType, st =>
    match wireType with
    | 0 => skipVarint st
    | 1 => skipRaw 8 st
    | 2 => do
        let (n, st') ← readUint32 st
        skipRaw n st'
    | 3 => do
        let (tag, st') ← readUint32 st
        if tag % 8 = 4 then .ok st'
        else do
          let st'' ← skipType fuel (tag % 8) st'
          skipType fuel 3 st''
    | 5 => skipRaw 4 st
    | _ => .error "invalid wire type"

/-! ## The decoder (`decodeWithRegions` and its recursive `readMessage`) -/

/-- Field lookup by number: the source scans `currentType.fields` in order
and takes the first descriptor whose `id` equals the tag's field number. -/
def findField (ty : PType) (fieldId : Nat) : Option PField :=
  ty.fields.find? (fun f => f.id == fieldId)

/-- JS property read `targetObj[name]` (`none` = `undefined`). -/
def lookupField : Obj → String → Option PValue
  | [], _ => none
  | (k, w) :: rest, n => if k = n then some w else lookupField rest n

/-- JS property write `targetObj[name] = v`: overwrite in place, else append
(JS objects keep first-insertion order on overwrite). -/
def setField : Obj → String → PValue → Obj
  | [], n, v => [(n, v)]
  | (k, w) :: rest, n, v =>
    if k = n then (n, v) :: rest else (k, w) :: setField rest n v

/-- JS falsiness of `targetObj[name]` (`!targetObj[fieldName]` in the
source): `undefined`, `null`, `0`, `""` and `false` are falsy; objects and
arrays are truthy. -/
def jsFalsy : Option PValue → Bool
  | none => true
  | some .vNull => true
  | some (.vInt n) => n == 0
  | some (.vBool b) => !b
  | some (.vStr s) => s == ""
  | some (.vBytes _) => false
  | some (.vArr _) => false
  | some (.vMsg _) => false

/-- `targetObj[name].push(v)`: appending to a stored array; anything else
raises a JS `TypeError`, modelled as failure. -/
def pushToArray (obj : Obj) (n : String) (v : PValue) : Except String Obj :=
  match lookupField obj n with
  | some (.vArr xs) => .ok (setField obj n (.vArr (xs ++ [v])))
  | _ => .error "push is not a function"

/-- The packed block's inner loop: `while (reader.pos < packedEnd) {
arr.push((reader as any)[field.type]()) }`.  Fuel `packedLen + 1` at the
call site bounds the loop, since each element read consumes at least one
byte. -/
def packedLoop : Nat → String → Nat → List PValue → ReaderState →
    Except String (List PValue × ReaderState)
  | 0, _, _, _, _ => .error "out of fuel"
  | fuel + 1, t, packedEnd, arr, st =>
    if st.pos < packedEnd then do
      let (v, st') ← callReadMethod t st
      packedLoop fuel t packedEnd (arr ++ [v]) st'
    else .ok (arr, st)

/-- The path join of the source (`basePath ? basePath + "." + fieldName :
fieldName`). -/
def joinPath (bp comp : String) : String := if bp = "" then comp else bp ++ "." ++ comp

/-- `field ? field.name : unknown_<fieldNumber>` (line 40 of the source). -/
def fieldNameOf (field : Option PField) (fieldId : Nat) : String :=
  match field with
  | some f => f.name
  | none => "unknown_" ++ toString fieldId

/-- The `currentPath` computation of the source (lines 43-49): the joined
path, plus a `[index]` suffix when the field is repeated and its slot
already holds an array. -/
def fieldPath (field : Option PField) (targetObj : Obj) (basePath fieldName : String) :
    String :=
  match field with
  | some f =>
    if f.repeated then
      match lookupField targetObj fieldName with
      | some (.vArr xs) => joinPath basePath fieldName ++ "[" ++ toString xs.length ++ "]"
      | _ => joinPath basePath fieldName
    else joinPath basePath fieldName
  | none => joinPath basePath fieldName

/-- The source's recursive `readMessage`: loop `while (reader.pos < endPos)`,
reading one field per iteration — tag, field resolution, then the map /
packed / nested-message / scalar / unknown dispatch exactly as the source
does, updating the value tree and appending the field's `ByteRegion` to the
flat list, then continuing the loop.  One fuel unit is spent per loop
iteration and per nesting level; `decodeWithRegions` supplies
`buffer.length + 1`, sufficient because every iteration consumes at least
the tag byte. -/
def readMessage (fuel : Nat) (currentType : PType) (endPos : Nat) (targetObj : Obj)
    (basePath : String) (depth : Nat) (globalOffset : Nat) (st : ReaderState)
    (regions : List ByteRegion) : Except String (Obj × List ByteRegion × ReaderState) :=
  match fuel with
  | 0 => .error "out of fuel"
  | fuel + 1 =>
    if st.pos < endPos then do
      let startPos := st.pos
      let (tag, st) ← readUint32 st
      let fieldId := tag / 8
      let wireType := tag % 8
      let field := findField currentType fieldId
      let fieldName := fieldNameOf field fieldId
      let path0 := joinPath basePath fieldName
      -- `if (field && field.repeated && !targetObj[fieldName]) targetObj[fieldName] = []`
      let targetObj := match field with
        | some f =>
          if f.repeated && jsFalsy (lookupField targetObj fieldName) then
            setField targetObj fieldName (.vArr [])
          else targetObj
        | none => targetObj
      -- `if (field && field.repeated && Array.isArray(targetObj[fieldName]))`: add `[index]`
      let currentPath := fieldPath field targetObj basePath fieldName
      let regionStart := startPos + globalOffset
      match field with
      | none => do
          -- Unknown field: `reader.skipType(wireType)`, value `"Unknown Field"`.
          let st ← skipType (st.buf.length + 1) wireType st
          readMessage fuel currentType endPos targetObj basePath depth globalOffset st
            (regions ++ [⟨startPos, st.pos, currentPath, .vStr "Unknown Field", "unknown",
              wireType, fieldName, depth⟩])
      | some f =>
        if f.map then do
          -- Map field: skipped, `value` keeps its initial `null`.
          let st ← skipType (st.buf.length + 1) wireType st
          readMessage fuel currentType endPos targetObj basePath depth globalOffset st
            (regions ++ [⟨startPos, st.pos, currentPath, .vNull, f.type, wireType,
              fieldName, depth⟩])
        else if f.repeated && f.packed && wireType == 2 then do
          -- Packed repeated field: one region for the whole block, path without index.
          let (packedLen, st) ← readUint32 st
          let packedEnd := st.pos + packedLen
          let targetObj :=
            if jsFalsy (lookupField targetObj fieldName) then
              setField targetObj fieldName (.vArr [])
            else targetObj
          let arr ← match lookupField targetObj fieldName with
            | some (.vArr xs) => pure xs
            | _ => Except.error "push is not a function"
          let (arr, st) ← packedLoop (packedLen + 1) f.type packedEnd arr st
          readMessage fuel currentType endPos (setField targetObj fieldName (.vArr arr))
            basePath depth globalOffset st
            (regions ++ [⟨regionStart, st.pos + globalOffset, path0, .vArr arr,
              "packed " ++ f.type, wireType, fieldName, depth⟩])
        else
          match wireType, f.resolvedType with
          | 2, .msg m => do
              -- Nested message: recurse on the same reader, then record the
              -- wrapper region spanning tag + length header + body.
              let (len, st) ← readUint32 st
              let msgEnd := st.pos + len
              let (nestedObj, regions, st) ←
                readMessage fuel m msgEnd [] currentPath (depth + 1) 0 st regions
              let targetObj ←
                if f.repeated then pushToArray targetObj fieldName (.vMsg nestedObj)
                else pure (setField targetObj fieldName (.vMsg nestedObj))
              readMessage fuel currentType endPos targetObj basePath depth globalOffset st
                (regions ++ [⟨startPos, st.pos, currentPath, .vMsg nestedObj, f.type,
                  wireType, fieldName, depth⟩])
          | _, _ => do
              -- Scalar / string / bytes dispatched by type name; enum fallback
              -- reads `int32`; otherwise skip with a `"[Skipped]"` placeholder.
              let (value, st) ←
                if hasReadMethod f.type then callReadMethod f.type st
                else match f.resolvedType with
                  | .enum => do
                      let (v, st') ← readInt32 st
                      pure (PValue.vInt v, st')
                  | _ => do
                      let st' ← skipType (st.buf.length + 1) wireType st
                      pure (PValue.vStr "[Skipped]", st')
              let targetObj ←
                if f.repeated then pushToArray targetObj fieldName value
                else pure (setField targetObj fieldName value)
              readMessage fuel currentType endPos targetObj basePath depth globalOffset st
                (regions ++ [⟨startPos, st.pos, currentPath, value, f.type, wireType,
                  fieldName, depth⟩])
    else .ok (targetObj, regions, st)

/-- `decodeWithRegions(type, buffer)`: run `readMessage` from offset 0 to
`reader.len` with empty path and depth 0; any exception is caught and
replaced by the fixed top-level failure message, returning no partial
result. -/
def decodeWithRegions (type : PType) (buffer : List Nat) :
    Except String (Obj × List ByteRegion) :=
  match readMessage (buffer.length + 1) type buffer.length [] "" 0 0 ⟨buffer, 0⟩ [] with
  | .ok (result, regions, _) => .ok (result, regions)
  | .error _ => .error "Failed to decode binary with provided proto type."

/-! ## The region queries (`findRegionByByte`, `findRegionsByPath`) -/

/-- The sort key `a.end - a.start` of the source's comparator. -/
def regionSpan (r : ByteRegion) : Nat := r.«end» - r.start

/-- Stable insertion of a later element into a span-sorted list: it goes
after strictly smaller spans and before strictly larger or equal ones that
came later, keeping earlier equal-span elements first. -/
def insertBySpan (r : ByteRegion) : List ByteRegion → List ByteRegion
  | [] => [r]
  | b :: bs => if regionSpan b < regionSpan r then b :: insertBySpan r bs else r :: b :: bs

/-- `candidates.sort((a, b) => (a.end - a.start) - (b.end - b.start))`:
ECMAScript's `Array.prototype.sort` is stable, and a stable sort by span is
unique, so this insertion sort models it exactly. -/
def sortBySpan : List ByteRegion → List ByteRegion
  | [] => []
  | a :: l => insertBySpan a (sortBySpan l)

/-- `findRegionByByte`: filter to the regions containing the byte, sort by
ascending span, take the first (or `undefined`). -/
def findRegionByByte (regions : List ByteRegion) (byteIndex : Nat) : Option ByteRegion :=
  (sortBySpan (regions.filter
    (fun r => decide (byteIndex ≥ r.start) && decide (byteIndex < r.«end»)))).head?

/-- `findRegionsByPath`: exact path match, in recording order. -/
def findRegionsByPath (regions : List ByteRegion) (path : String) : List ByteRegion :=
  regions.filter (fun r => r.path == path)

/-! ## Properties of the region queries -/

/-- `r` contains byte `i`: the filter condition of `findRegionByByte`. -/
def regionContains (r : ByteRegion) (i : Nat) : Prop := r.start ≤ i ∧ i < r.«end»

instance (r : ByteRegion) (i : Nat) : Decidable (regionContains r i) := by
  unfold regionContains; infer_instance

theorem insertBySpan_head (r : ByteRegion) (l : List ByteRegion) :
    (insertBySpan r l).head? = some (match l with
      | [] => r
      | b :: _ => if regionSpan b < regionSpan r then b else r) := by
  cases l with
  | nil => rfl
  | cons b bs =>
    simp only [insertBySpan]
    split <;> rfl

/-- The element a stable ascending sort brings to the front: the first
element of minimal span. -/
def firstMinBySpan : List ByteRegion → Option ByteRegion
  | [] => none
  | a :: l =>
    match firstMinBySpan l with
    | none => some a
    | some m => some (if regionSpan m < regionSpan a then m else a)

theorem sortBySpan_head (l : List ByteRegion) :
    (sortBySpan l).head? = firstMinBySpan l := by
  induction l with
  | nil => rfl
  | cons a l ih =>
    simp only [sortBySpan, firstMinBySpan]
    rw [insertBySpan_head]
    cases h : sortBySpan l with
    | nil =>
      have h0 : firstMinBySpan l = none := by rw [← ih, h]; rfl
      rw [h0]
    | cons b bs =>
      have h0 : firstMinBySpan l = some b := by rw [← ih, h]; rfl
      rw [h0]

theorem firstMinBySpan_eq_none {l : List ByteRegion} :
    firstMinBySpan l = none ↔ l = [] := by
  cases l with
  | nil => simp [firstMinBySpan]
  | cons a l =>
    simp only [firstMinBySpan]
    cases firstMinBySpan l <;> simp

theorem firstMinBySpan_spec {l : List ByteRegion} {m : ByteRegion}
    (h : firstMinBySpan l = some m) :
    (∃ l₁ l₂, l = l₁ ++ m :: l₂ ∧ ∀ s ∈ l₁, regionSpan m < regionSpan s) ∧
    ∀ s ∈ l, regionSpan m ≤ regionSpan s := by
  induction l generalizing m with
  | nil => cases h
  | cons a l ih =>
    simp only [firstMinBySpan] at h
    cases hf : firstMinBySpan l with
    | none =>
      have hl : l = [] := firstMinBySpan_eq_none.mp hf
      rw [hf] at h
      simp only [Option.some.injEq] at h
      subst hl
      refine ⟨⟨[], [], by simp [h], by simp⟩, ?_⟩
      intro s hs
      simp only [List.mem_singleton] at hs
      subst hs; subst h; exact le_refl _
    | some m' =>
      rw [hf] at h
      simp only [Option.some.injEq] at h
      obtain ⟨⟨l₁, l₂, hsplit, hlt⟩, hle⟩ := ih hf
      by_cases hc : regionSpan m' < regionSpan a
      · rw [if_pos hc] at h
        subst h
        refine ⟨⟨a :: l₁, l₂, by simp [hsplit], ?_⟩, ?_⟩
        · intro s hs
          rcases List.mem_cons.mp hs with h1 | h1
          · subst h1; exact hc
          · exact hlt s h1
        · intro s hs
          rcases List.mem_cons.mp hs with h1 | h1
          · subst h1; exact le_of_lt hc
          · exact hle s h1
      · rw [if_neg hc] at h
        subst h
        refine ⟨⟨[], l, by simp, by simp⟩, ?_⟩
        intro s hs
        rcases List.mem_cons.mp hs with h1 | h1
        · subst h1; exact le_refl _
        · exact le_trans (Nat.le_of_not_lt hc) (hle s h1)

theorem filter_split {α : Type} (p : α → Bool) {l l₁ l₂ : List α} {r : α}
    (h : l.filter p = l₁ ++ r :: l₂) :
    ∃ m₁ m₂, l = m₁ ++ r :: m₂ ∧ m₁.filter p = l₁ := by
  induction l generalizing l₁ with
  | nil => simp at h
  | cons a l ih =>
    by_cases hp : p a
    · rw [List.filter_cons_of_pos hp] at h
      cases l₁ with
      | nil =>
        simp only [List.nil_append, List.cons.injEq] at h
        exact ⟨[], l, by simp [h.1], by simp⟩
      | cons b l₁' =>
        simp only [List.cons_append, List.cons.injEq] at h
        obtain ⟨hab, hrest⟩ := h
        obtain ⟨m₁, m₂, h1, h2⟩ := ih hrest
        exact ⟨a :: m₁, m₂, by simp [h1], by rw [List.filter_cons_of_pos hp, h2, hab]⟩
    · rw [List.filter_cons_of_neg (by simpa using hp)] at h
      obtain ⟨m₁, m₂, h1, h2⟩ := ih h
      exact ⟨a :: m₁, m₂, by simp [h1],
        by rw [List.filter_cons_of_neg (by simpa using hp), h2]⟩

theorem regionContains_decide (byteIndex : Nat) (s : ByteRegion) :
    (decide (byteIndex ≥ s.start) && decide (byteIndex < s.«end»)) = true ↔
      regionContains s byteIndex := by
  simp [regionContains, ge_iff_le]

/-- C2: `findRegionByByte` returns `none` exactly when no region contains
the byte; otherwise it returns a containing region of minimal span, and the
first such region in the input list's order. -/
theorem claim_C2_findRegionByByte (regions : List ByteRegion) (byteIndex : Nat) :
    (findRegionByByte regions byteIndex = none ↔
      ∀ r ∈ regions, ¬ regionContains r byteIndex) ∧
    ∀ r, findRegionByByte regions byteIndex = some r →
      regionContains r byteIndex ∧
      (∀ s ∈ regions, regionContains s byteIndex → regionSpan r ≤ regionSpan s) ∧
      ∃ l₁ l₂, regions = l₁ ++ r :: l₂ ∧
        ∀ s ∈ l₁, regionContains s byteIndex → regionSpan r < regionSpan s := by
  constructor
  case left =>
    constructor
    case mpr =>
      intro hnone
      cases hres : findRegionByByte regions byteIndex with
      | none => rfl
      | some r =>
        unfold findRegionByByte at hres
        rw [sortBySpan_head] at hres
        obtain ⟨⟨l₁, l₂, hsplit, -⟩, -⟩ := firstMinBySpan_spec hres
        have hrmem : r ∈ regions.filter
            (fun r => decide (byteIndex ≥ r.start) && decide (byteIndex < r.«end»)) := by
          rw [hsplit]; simp
        obtain ⟨hmem, hp⟩ := List.mem_filter.mp hrmem
        exact absurd ((regionContains_decide byteIndex r).mp (by simpa using hp))
          (hnone r hmem)
    case mp =>
      intro h r hr hc
      unfold findRegionByByte at h
      rw [sortBySpan_head] at h
      have hnil := firstMinBySpan_eq_none.mp h
      have hmem : r ∈ regions.filter
          (fun r => decide (byteIndex ≥ r.start) && decide (byteIndex < r.«end»)) :=
        List.mem_filter.mpr ⟨hr, by simpa using (regionContains_decide byteIndex r).mpr hc⟩
      rw [hnil] at hmem
      simp at hmem
  case right =>
    intro r h
    unfold findRegionByByte at h
    rw [sortBySpan_head] at h
    obtain ⟨⟨l₁, l₂, hsplit, hlt⟩, hle⟩ := firstMinBySpan_spec h
    have hrmem : r ∈ regions.filter
        (fun r => decide (byteIndex ≥ r.start) && decide (byteIndex < r.«end»)) := by
      rw [hsplit]; simp
    have hrc : regionContains r byteIndex :=
      (regionContains_decide byteIndex r).mp (by simpa using (List.mem_filter.mp hrmem).2)
    refine ⟨hrc, ?_, ?_⟩
    · intro s hs hsc
      exact hle s (List.mem_filter.mpr
        ⟨hs, by simpa using (regionContains_decide byteIndex s).mpr hsc⟩)
    · obtain ⟨m₁, m₂, h1, h2⟩ := filter_split _ hsplit
      refine ⟨m₁, m₂, h1, ?_⟩
      intro s hs hsc
      apply hlt
      rw [← h2]
      exact List.mem_filter.mpr
        ⟨hs, by simpa using (regionContains_decide byteIndex s).mpr hsc⟩

/-- C2 witness: on the concrete list `[span-2 region, span-1 region]` and
byte 0, the theorem yields the span-1 region's properties at a concrete
input. -/
theorem claim_C2_witness :
    regionContains (⟨0, 1, "c", .vNull, "t", 0, "c", 0⟩ : ByteRegion) 0 ∧
      regionSpan (⟨0, 1, "c", .vNull, "t", 0, "c", 0⟩ : ByteRegion) ≤
        regionSpan (⟨0, 2, "a", .vNull, "t", 0, "a", 0⟩ : ByteRegion) := by
  have h := (claim_C2_findRegionByByte
    [⟨0, 2, "a", .vNull, "t", 0, "a", 0⟩, ⟨0, 1, "c", .vNull, "t", 0, "c", 0⟩] 0).2
    ⟨0, 1, "c", .vNull, "t", 0, "c", 0⟩ rfl
  exact ⟨h.1, h.2.1 ⟨0, 2, "a", .vNull, "t", 0, "a", 0⟩ (by simp) (by decide)⟩

/-! ## Concrete schemas used by the testable scenarios -/

/-- `{ name: string = 1; id: int32 = 2 }`. -/
def schemaStrInt : PType := .mk "Root"
  [ .mk 1 "name" "string" false false false .scalar
  , .mk 2 "id" "int32" false false false .scalar ]

/-- `M { x: int32 = 1 }`. -/
def schemaInner : PType := .mk "M" [ .mk 1 "x" "int32" false false false .scalar ]

/-- `Root { m: M = 1 }` with nested message `M`. -/
def schemaNested : PType := .mk "Root" [ .mk 1 "m" "M" false false false (.msg schemaInner) ]

/-- `Root { f: repeated packed int32 = 1 }`. -/
def schemaPackedInt : PType := .mk "Root" [ .mk 1 "f" "int32" true true false .scalar ]

/-- `Root { x: int32 = 1 }`. -/
def schemaInt32 : PType := .mk "Root" [ .mk 1 "x" "int32" false false false .scalar ]

/-- `Root { e: repeated packed Color = 1 }` where `Color` is an enum. -/
def schemaPackedEnum : PType := .mk "Root" [ .mk 1 "e" "Color" true true false .enum ]

/-- C1: the concrete scenario of the spec: decoding
`[0x0A, 0x02, 'A', 'l', 0x10, 0x07]` against `{name: string = 1; id: int32
= 2}` yields `{name: "Al", id: 7}` and exactly the two stated regions. -/
theorem claim_C1_concreteScenario :
    decodeWithRegions schemaStrInt [0x0A, 0x02, 0x41, 0x6C, 0x10, 0x07] =
      .ok ([("name", .vStr "Al"), ("id", .vInt 7)],
        [⟨0, 4, "name", .vStr "Al", "string", 2, "name", 0⟩,
         ⟨4, 6, "id", .vInt 7, "int32", 0, "id", 0⟩]) := rfl

/-- C5 counterexample: a packed block whose declared length is 1 but whose
single varint element occupies 2 bytes.  The element read overshoots
`packedEnd` (= 3) and the loop simply exits; the decode succeeds — there is
no boundary-mismatch failure, contrary to the claim. -/
theorem claim_C5_counterexample :
    decodeWithRegions schemaPackedInt [0x0A, 0x01, 0x80, 0x01] =
      .ok ([("f", .vArr [.vInt 128])],
        [⟨0, 4, "f", .vArr [.vInt 128], "packed int32", 2, "f", 0⟩]) := rfl

/-- C5 amended: overshoot of an inner message boundary is not detected
either.  Here the nested message declares length 1 (`msgEnd` = 3) but its
field occupies bytes 2..4; the inner loop exits with the cursor at 4 and the
decode returns normally. -/
theorem claim_C5_amended :
    decodeWithRegions schemaNested [0x0A, 0x01, 0x08, 0x05] =
      .ok ([("m", .vMsg [("x", .vInt 5)])],
        [⟨2, 4, "m.x", .vInt 5, "int32", 0, "x", 1⟩,
         ⟨0, 4, "m", .vMsg [("x", .vInt 5)], "M", 2, "m", 0⟩]) := rfl

/-- C6: a buffer holding only varint field 99 with value 5, against a schema
without field 99: decode succeeds, consumes exactly tag + varint (region
`[0, 3)` over the 3-byte buffer), path is `unknown_99`; and when the unknown
field repeats, each occurrence keeps the same un-indexed path (no array
grouping). -/
theorem claim_C6_unknownField :
    decodeWithRegions schemaInt32 [0x98, 0x06, 0x05] =
      .ok ([], [⟨0, 3, "unknown_99", .vStr "Unknown Field", "unknown", 0, "unknown_99", 0⟩]) ∧
    decodeWithRegions schemaInt32 [0x98, 0x06, 0x05, 0x98, 0x06, 0x05] =
      .ok ([],
        [⟨0, 3, "unknown_99", .vStr "Unknown Field", "unknown", 0, "unknown_99", 0⟩,
         ⟨3, 6, "unknown_99", .vStr "Unknown Field", "unknown", 0, "unknown_99", 0⟩]) :=
  ⟨rfl, rfl⟩

/-- C7 counterexample: decoding a well-formed nested message emits the inner
field's region (`m.x`) before the nested message field's own region (`m`):
emission is post-order, not pre-order as claimed. -/
theorem claim_C7_counterexample :
    decodeWithRegions schemaNested [0x0A, 0x02, 0x08, 0x07] =
      .ok ([("m", .vMsg [("x", .vInt 7)])],
        [⟨2, 4, "m.x", .vInt 7, "int32", 0, "x", 1⟩,
         ⟨0, 4, "m", .vMsg [("x", .vInt 7)], "M", 2, "m", 0⟩]) := rfl

/-- C8 amended: every fatal decode failure is delivered as the one fixed
error message of the top-level catch; it carries neither the type name nor
the failure offset, and no partial value tree or region list is returned
(the failure value is the only thing the caller gets). -/
theorem claim_C8_amended (ty : PType) (buffer : List Nat) (e : String)
    (h : decodeWithRegions ty buffer = .error e) :
    e = "Failed to decode binary with provided proto type." := by
  unfold decodeWithRegions at h
  split at h
  · exact absurd h (by simp)
  · injection h with h'
    exact h'.symm

/-- C8 witness: the theorem applied to the concrete truncated buffer
`[0x08]` (tag of field 1, then no varint payload). -/
theorem claim_C8_witness :
    decodeWithRegions schemaInt32 [0x08] =
      Except.error "Failed to decode binary with provided proto type." ∧
    "Failed to decode binary with provided proto type." =
      "Failed to decode binary with provided proto type." :=
  ⟨rfl, claim_C8_amended schemaInt32 [0x08] _ rfl⟩

/-- C8 counterexample: two decodes that fail against types with different
names (`Alpha` vs `Beta`) and at different byte offsets (offset 1, a varint
value running out of buffer; offset 2, an unknown field's skipped varint
running out) deliver the identical failure value — so the failure carries
neither the schema/type name nor the offset, contrary to the claim. -/
theorem claim_C8_counterexample :
    decodeWithRegions (.mk "Alpha" [.mk 1 "x" "int32" false false false .scalar]) [0x08] =
      .error "Failed to decode binary with provided proto type." ∧
    decodeWithRegions (.mk "Beta" []) [0x08, 0x80] =
      .error "Failed to decode binary with provided proto type." ∧
    ("Alpha" : String) ≠ "Beta" :=
  ⟨rfl, rfl, by decide⟩

/-! ## Evaluation helpers for the `Except` monad and single-byte reads -/

theorem okBind {α β : Type} (a : α) (f : α → Except String β) :
    (Except.ok a >>= f) = f a := rfl

theorem errBind {α β : Type} (e : String) (f : α → Except String β) :
    ((Except.error e : Except String α) >>= f) = Except.error e := rfl

theorem readVarintAux_succ (count : Nat) (st : ReaderState) (shift acc : Nat) :
    readVarintAux (count + 1) st shift acc =
      if st.pos < st.buf.length then
        let b := st.buf.getD st.pos 0
        let st' : ReaderState := ⟨st.buf, st.pos + 1⟩
        if b < 128 then .ok (acc + b * 2 ^ shift, st')
        else readVarintAux count st' (shift + 7) (acc + (b - 128) * 2 ^ shift)
      else .error "index out of range" := rfl

/-- A varint whose first byte has no continuation bit reads that byte. -/
theorem readVarint_byte (b : Nat) {buf : List Nat} {pos : Nat} (h : buf.getD pos 0 = b)
    (hp : pos < buf.length) (hb : b < 128) :
    readVarint ⟨buf, pos⟩ = .ok (b, ⟨buf, pos + 1⟩) := by
  have h10 : (10 : Nat) = 9 + 1 := rfl
  unfold readVarint
  rw [h10, readVarintAux_succ]
  simp only []
  rw [if_pos hp]
  simp only [h]
  rw [if_pos hb]
  simp

theorem readUint32_byte (b : Nat) {buf : List Nat} {pos : Nat} (h : buf.getD pos 0 = b)
    (hp : pos < buf.length) (hb : b < 128) :
    readUint32 ⟨buf, pos⟩ = .ok (b, ⟨buf, pos + 1⟩) := by
  unfold readUint32
  rw [readVarint_byte b h hp hb]
  have : b % 2 ^ 32 = b := Nat.mod_eq_of_lt (lt_trans hb (by norm_num))
  simp [this]
  omega

theorem packedLoop_succ (fuel : Nat) (t : String) (packedEnd : Nat) (arr : List PValue)
    (st : ReaderState) :
    packedLoop (fuel + 1) t packedEnd arr st =
      if st.pos < packedEnd then do
        let (v, st') ← callReadMethod t st
        packedLoop fuel t packedEnd (arr ++ [v]) st'
      else .ok (arr, st) := rfl

/-- A type name that is not a reader method makes `reader[name]()` fail. -/
theorem callReadMethod_not_function {t : String} (h : hasReadMethod t = false)
    (st : ReaderState) :
    callReadMethod t st = .error "reader method is not a function" := by
  unfold callReadMethod
  split <;> simp_all [hasReadMethod]

theorem callReadMethod_int32_byte (b : Nat) {buf : List Nat} {pos : Nat}
    (h : buf.getD pos 0 = b) (hp : pos < buf.length) (hb : b < 128) :
    callReadMethod "int32" ⟨buf, pos⟩ = .ok (.vInt (b : Int), ⟨buf, pos + 1⟩) := by
  unfold callReadMethod
  rw [readVarint_byte b h hp hb]
  have h1 : b % 2 ^ 32 = b := Nat.mod_eq_of_lt (lt_trans hb (by norm_num))
  have h2 : toSigned 32 b = (b : Int) := by
    unfold toSigned
    rw [if_pos (lt_trans hb (by norm_num))]
  simp only [okBind, h1, h2]
  rfl

/-- One loop iteration over a known, non-repeated, non-map `int32` field
whose tag and value are single-byte varints. -/
theorem readMessage_int32_step (fuel : Nat) (ty : PType) (f : PField) (endPos : Nat)
    (obj : Obj) (bp : String) (depth g : Nat) (buf : List Nat) (pos : Nat)
    (regions : List ByteRegion)
    (hpos : pos < endPos) (hpl : pos < buf.length) (htag : buf.getD pos 0 = 8 * f.id)
    (hid : f.id < 16) (hfind : findField ty f.id = some f)
    (hrep : f.repeated = false) (hmap : f.map = false) (hty : f.type = "int32")
    (hres : f.resolvedType = .scalar)
    (hp : pos + 1 < buf.length) (hv : buf.getD (pos + 1) 0 < 128) :
    readMessage (fuel + 1) ty endPos obj bp depth g ⟨buf, pos⟩ regions =
      readMessage fuel ty endPos (setField obj f.name (.vInt (buf.getD (pos + 1) 0 : Int)))
        bp depth g ⟨buf, pos + 1 + 1⟩
        (regions ++ [⟨pos, pos + 1 + 1, if bp = "" then f.name else bp ++ "." ++ f.name,
          .vInt (buf.getD (pos + 1) 0 : Int), f.type, 8 * f.id % 8, f.name, depth⟩]) := by
  rw [readMessage]
  rw [if_pos hpos]
  rw [readUint32_byte (8 * f.id) htag hpl (by omega)]
  simp only [okBind]
  have htag1 : 8 * f.id / 8 = f.id := by omega
  rw [htag1, hfind]
  simp only [hrep, hmap, hres, hty]
  simp only [Bool.false_and, Bool.false_eq_true, if_false]
  have htag2 : 8 * f.id % 8 = 0 := by omega
  rw [htag2]
  simp only [show hasReadMethod "int32" = true from rfl, if_true]
  rw [callReadMethod_int32_byte (buf.getD (pos + 1) 0) rfl hp hv]
  simp only [okBind, pure, Except.pure]
  simp only [fieldNameOf, fieldPath, hrep, Bool.false_eq_true, if_false, joinPath]

/-- C9: a repeated packed field whose type name is not a reader method (for
example a packed enum): the element read inside the packed loop fails (no
local enum/skip recovery as in the scalar path) and the whole decode call
fails, for any such schema and any nonempty packed block. -/
theorem claim_C9_packedUnsupported (ty : PType) (f : PField) (blockLen : Nat)
    (rest : List Nat)
    (hfind : findField ty f.id = some f)
    (hrep : f.repeated = true) (hpk : f.packed = true) (hmap : f.map = false)
    (hid : f.id < 16) (hlen0 : 0 < blockLen) (hlen : blockLen < 128)
    (hnm : hasReadMethod f.type = false) :
    decodeWithRegions ty ((8 * f.id + 2) :: blockLen :: rest) =
      .error "Failed to decode binary with provided proto type." := by
  unfold decodeWithRegions
  have hbuflen : ((8 * f.id + 2) :: blockLen :: rest).length = rest.length + 2 := by simp
  have hrm : readMessage (((8 * f.id + 2) :: blockLen :: rest).length + 1) ty
      ((8 * f.id + 2) :: blockLen :: rest).length [] "" 0 0
      ⟨(8 * f.id + 2) :: blockLen :: rest, 0⟩ [] =
      .error "reader method is not a function" := by
    rw [hbuflen]
    rw [show rest.length + 2 + 1 = (rest.length + 2) + 1 from rfl]
    rw [readMessage]
    rw [if_pos (by omega : 0 < rest.length + 2)]
    rw [readUint32_byte (8 * f.id + 2) (by simp) (by simp) (by omega)]
    simp only [okBind]
    have htag1 : (8 * f.id + 2) / 8 = f.id := by omega
    have htag2 : (8 * f.id + 2) % 8 = 2 := by omega
    rw [htag1, htag2, hfind]
    simp only [hrep, hpk, hmap]
    simp only [Bool.false_eq_true, if_false, lookupField, setField, jsFalsy, if_true,
      Bool.true_and, beq_self_eq_true, if_pos]
    rw [readUint32_byte blockLen (by simp) (by simp) (by omega)]
    simp only [okBind]
    simp only [pure, Except.pure, okBind, packedLoop_succ]
    rw [if_pos (by omega : 0 + 1 + 1 < 0 + 1 + 1 + blockLen)]
    rw [callReadMethod_not_function hnm]
    simp only [errBind]
  rw [hrm]

/-- C9 witness: the packed-enum schema and the 3-byte buffer
`[0x0A, 0x01, 0x02]` (field 1, wire type 2, block length 1, one element). -/
theorem claim_C9_witness :
    decodeWithRegions schemaPackedEnum [10, 1, 2] =
      .error "Failed to decode binary with provided proto type." :=
  claim_C9_packedUnsupported schemaPackedEnum (.mk 1 "e" "Color" true true false .enum)
    1 [2] rfl rfl rfl rfl (by decide) (by omega) (by omega) rfl

/-- C10: when the known, non-repeated, non-map field 1 (`x: int32`) occurs
twice in the buffer, decoding succeeds, the later value overwrites the
earlier one (`x = v2`), one region is emitted per occurrence with the same
path `"x"`, and `findRegionsByPath` returns both regions for that path. -/
theorem claim_C10_duplicateField (v1 v2 : Nat) (hv1 : v1 < 128) (hv2 : v2 < 128) :
    decodeWithRegions schemaInt32 [8, v1, 8, v2] =
      .ok ([("x", .vInt (v2 : Int))],
        [⟨0, 2, "x", .vInt (v1 : Int), "int32", 0, "x", 0⟩,
         ⟨2, 4, "x", .vInt (v2 : Int), "int32", 0, "x", 0⟩]) ∧
    findRegionsByPath
      [⟨0, 2, "x", .vInt (v1 : Int), "int32", 0, "x", 0⟩,
       ⟨2, 4, "x", .vInt (v2 : Int), "int32", 0, "x", 0⟩] "x" =
      [⟨0, 2, "x", .vInt (v1 : Int), "int32", 0, "x", 0⟩,
       ⟨2, 4, "x", .vInt (v2 : Int), "int32", 0, "x", 0⟩] := by
  constructor
  · unfold decodeWithRegions
    have hrm : readMessage ([8, v1, 8, v2].length + 1) schemaInt32 [8, v1, 8, v2].length
        [] "" 0 0 ⟨[8, v1, 8, v2], 0⟩ [] =
        .ok ([("x", .vInt (v2 : Int))],
          [⟨0, 2, "x", .vInt (v1 : Int), "int32", 0, "x", 0⟩,
           ⟨2, 4, "x", .vInt (v2 : Int), "int32", 0, "x", 0⟩], ⟨[8, v1, 8, v2], 4⟩) := by
      rw [show [8, v1, 8, v2].length = 4 from rfl]
      rw [show (4 : Nat) + 1 = 3 + 1 + 1 from rfl]
      rw [readMessage_int32_step (3 + 1) schemaInt32 (.mk 1 "x" "int32" false false false .scalar)
        4 [] "" 0 0 [8, v1, 8, v2] 0 [] (by omega) (by simp) (by simp [PField.id]) (by decide)
        rfl rfl rfl rfl rfl (by simp) (by simpa using hv1)]
      rw [readMessage_int32_step 3 schemaInt32 (.mk 1 "x" "int32" false false false .scalar)
        4 _ "" 0 0 [8, v1, 8, v2] 2 _ (by omega) (by simp) (by simp [PField.id]) (by decide)
        rfl rfl rfl rfl rfl (by simp) (by simpa using hv2)]
      rw [readMessage]
      rw [if_neg (by omega : ¬ (2 + 1 + 1 < 4))]
      simp [setField, PField.name, PField.type]
    rw [hrm]
  · simp [findRegionsByPath]

/-- C10 witness: the theorem at the concrete values 1 and 2. -/
theorem claim_C10_witness :
    decodeWithRegions schemaInt32 [8, 1, 8, 2] =
      .ok ([("x", .vInt 2)],
        [⟨0, 2, "x", .vInt 1, "int32", 0, "x", 0⟩,
         ⟨2, 4, "x", .vInt 2, "int32", 0, "x", 0⟩]) ∧
    findRegionsByPath
      [⟨0, 2, "x", .vInt 1, "int32", 0, "x", 0⟩,
       ⟨2, 4, "x", .vInt 2, "int32", 0, "x", 0⟩] "x" =
      [⟨0, 2, "x", .vInt 1, "int32", 0, "x", 0⟩,
       ⟨2, 4, "x", .vInt 2, "int32", 0, "x", 0⟩] :=
  claim_C10_duplicateField 1 2 (by omega) (by omega)

/-! ## Cursor monotonicity of the reader primitives

Every reader operation leaves the buffer unchanged and never moves the
cursor backwards; tag reads move it strictly forward. -/

theorem readVarintAux_mono : ∀ (c : Nat) (st : ReaderState) (sh acc : Nat)
    {v : Nat} {st' : ReaderState}, readVarintAux c st sh acc = .ok (v, st') →
    st'.buf = st.buf ∧ st.pos < st'.pos := by
  intro c
  induction c with
  | zero => intro st sh acc v st' h; exact absurd h (by simp [readVarintAux])
  | succ c ih =>
    intro st sh acc v st' h
    rw [readVarintAux_succ] at h
    by_cases hp : st.pos < st.buf.length
    · rw [if_pos hp] at h
      simp only [] at h
      by_cases hb : st.buf.getD st.pos 0 < 128
      · rw [if_pos hb] at h
        simp only [Except.ok.injEq, Prod.mk.injEq] at h
        rw [← h.2]
        exact ⟨rfl, Nat.lt_succ_self _⟩
      · rw [if_neg hb] at h
        obtain ⟨hbuf, hpos⟩ := ih _ _ _ h
        exact ⟨hbuf, Nat.lt_of_succ_lt hpos⟩
    · rw [if_neg hp] at h
      exact absurd h (by simp)

theorem readVarint_mono {st : ReaderState} {v : Nat} {st' : ReaderState}
    (h : readVarint st = .ok (v, st')) : st'.buf = st.buf ∧ st.pos < st'.pos :=
  readVarintAux_mono 10 st 0 0 h

theorem readUint32_mono {st : ReaderState} {v : Nat} {st' : ReaderState}
    (h : readUint32 st = .ok (v, st')) : st'.buf = st.buf ∧ st.pos < st'.pos := by
  unfold readUint32 at h
  cases hv : readVarint st with
  | error e => rw [hv] at h; exact absurd h (by simp [errBind])
  | ok p =>
    obtain ⟨w, st₁⟩ := p
    rw [hv, okBind] at h
    simp only [pure, Except.pure, Except.ok.injEq, Prod.mk.injEq] at h
    rw [← h.2]
    exact readVarint_mono hv

theorem readInt32_mono {st : ReaderState} {v : Int} {st' : ReaderState}
    (h : readInt32 st = .ok (v, st')) : st'.buf = st.buf ∧ st.pos < st'.pos := by
  unfold readInt32 at h
  cases hv : readVarint st with
  | error e => rw [hv] at h; exact absurd h (by simp [errBind])
  | ok p =>
    obtain ⟨w, st₁⟩ := p
    rw [hv, okBind] at h
    simp only [pure, Except.pure, Except.ok.injEq, Prod.mk.injEq] at h
    rw [← h.2]
    exact readVarint_mono hv

theorem readRaw_mono {n : Nat} {st : ReaderState} {bs : List Nat} {st' : ReaderState}
    (h : readRaw n st = .ok (bs, st')) : st'.buf = st.buf ∧ st.pos ≤ st'.pos := by
  unfold readRaw at h
  by_cases hp : st.pos + n ≤ st.buf.length
  · rw [if_pos hp] at h
    simp only [Except.ok.injEq, Prod.mk.injEq] at h
    rw [← h.2]
    exact ⟨rfl, Nat.le_add_right _ _⟩
  · rw [if_neg hp] at h
    exact absurd h (by simp)

theorem except_bind_ok {α β : Type} {m : Except String α} {k : α → Except String β}
    {b : β} (h : (m >>= k) = .ok b) : ∃ a, m = .ok a ∧ k a = .ok b := by
  cases m with
  | error e => exact Except.noConfusion h
  | ok a =>
    rw [okBind] at h
    exact ⟨a, rfl, h⟩

theorem callReadMethod_mono {t : String} {st : ReaderState} {v : PValue}
    {st' : ReaderState} (h : callReadMethod t st = .ok (v, st')) :
    st'.buf = st.buf ∧ st.pos ≤ st'.pos := by
  unfold callReadMethod at h
  split at h <;>
    first
    | exact Except.noConfusion h
    | (obtain ⟨⟨w, s⟩, hm, hk⟩ := except_bind_ok h
       dsimp only at hk
       first
       | (simp only [pure, Except.pure, Except.ok.injEq, Prod.mk.injEq] at hk
          rw [← hk.2]
          first
          | exact ⟨(readVarint_mono hm).1, Nat.le_of_lt (readVarint_mono hm).2⟩
          | exact readRaw_mono hm)
       | (obtain ⟨⟨bs, s₂⟩, hm₂, hk₂⟩ := except_bind_ok hk
          dsimp only at hk₂
          simp only [pure, Except.pure, Except.ok.injEq, Prod.mk.injEq] at hk₂
          rw [← hk₂.2]
          exact ⟨(readRaw_mono hm₂).1.trans (readUint32_mono hm).1,
            Nat.le_trans (Nat.le_of_lt (readUint32_mono hm).2) (readRaw_mono hm₂).2⟩))

theorem skipVarintAux_mono : ∀ (fuel : Nat) {st st' : ReaderState},
    skipVarintAux fuel st = .ok st' → st'.buf = st.buf ∧ st.pos ≤ st'.pos := by
  intro fuel
  induction fuel with
  | zero => intro st st' h; exact Except.noConfusion h
  | succ fuel ih =>
    intro st st' h
    rw [skipVarintAux] at h
    by_cases hp : st.pos < st.buf.length
    · rw [if_pos hp] at h
      dsimp only at h
      by_cases hb : st.buf.getD st.pos 0 < 128
      · rw [if_pos hb] at h
        injection h with h'
        rw [← h']
        exact ⟨rfl, Nat.le_succ _⟩
      · rw [if_neg hb] at h
        obtain ⟨h1, h2⟩ := ih h
        exact ⟨h1, Nat.le_trans (Nat.le_succ _) h2⟩
    · rw [if_neg hp] at h
      exact Except.noConfusion h

theorem skipVarint_mono {st st' : ReaderState} (h : skipVarint st = .ok st') :
    st'.buf = st.buf ∧ st.pos ≤ st'.pos :=
  skipVarintAux_mono _ h

theorem skipRaw_mono {n : Nat} {st st' : ReaderState} (h : skipRaw n st = .ok st') :
    st'.buf = st.buf ∧ st.pos ≤ st'.pos := by
  unfold skipRaw at h
  by_cases hp : st.pos + n ≤ st.buf.length
  · rw [if_pos hp] at h
    injection h with h'
    rw [← h']
    exact ⟨rfl, Nat.le_add_right _ _⟩
  · rw [if_neg hp] at h
    exact Except.noConfusion h

theorem skipType_succ (fuel wireType : Nat) (st : ReaderState) :
    skipType (fuel + 1) wireType st = match wireType with
    | 0 => skipVarint st
    | 1 => skipRaw 8 st
    | 2 => do
        let (n, st') ← readUint32 st
        skipRaw n st'
    | 3 => do
        let (tag, st') ← readUint32 st
        if tag % 8 = 4 then .ok st'
        else do
          let st'' ← skipType fuel (tag % 8) st'
          skipType fuel 3 st''
    | 5 => skipRaw 4 st
    | _ => .error "invalid wire type" := rfl

theorem skipType_mono : ∀ (fuel wireType : Nat) {st st' : ReaderState},
    skipType fuel wireType st = .ok st' → st'.buf = st.buf ∧ st.pos ≤ st'.pos := by
  intro fuel
  induction fuel with
  | zero => intro wt st st' h; exact Except.noConfusion h
  | succ fuel ih =>
    intro wt st st' h
    rw [skipType_succ] at h
    split at h
    · exact skipVarint_mono h
    · exact skipRaw_mono h
    · obtain ⟨⟨n, s⟩, hm, hk⟩ := except_bind_ok h
      dsimp only at hk
      obtain ⟨h1, h2⟩ := readUint32_mono hm
      obtain ⟨h3, h4⟩ := skipRaw_mono hk
      exact ⟨h3.trans h1, Nat.le_trans (Nat.le_of_lt h2) h4⟩
    · obtain ⟨⟨tag, s⟩, hm, hk⟩ := except_bind_ok h
      dsimp only at hk
      obtain ⟨h1, h2⟩ := readUint32_mono hm
      by_cases ht : tag % 8 = 4
      · rw [if_pos ht] at hk
        injection hk with h'
        rw [← h']
        exact ⟨h1, Nat.le_of_lt h2⟩
      · rw [if_neg ht] at hk
        obtain ⟨s₂, hm₂, hk₂⟩ := except_bind_ok hk
        obtain ⟨h3, h4⟩ := ih _ hm₂
        obtain ⟨h5, h6⟩ := ih _ hk₂
        refine ⟨(h5.trans h3).trans h1, ?_⟩
        have := Nat.le_of_lt h2
        omega
    · exact skipRaw_mono h
    · exact Except.noConfusion h

theorem packedLoop_mono : ∀ (fuel : Nat) (t : String) (packedEnd : Nat)
    (arr : List PValue) {st : ReaderState} {arr' : List PValue} {st' : ReaderState},
    packedLoop fuel t packedEnd arr st = .ok (arr', st') →
    st'.buf = st.buf ∧ st.pos ≤ st'.pos := by
  intro fuel
  induction fuel with
  | zero => intro t pe arr st arr' st' h; exact Except.noConfusion h
  | succ fuel ih =>
    intro t pe arr st arr' st' h
    rw [packedLoop_succ] at h
    by_cases hp : st.pos < pe
    · rw [if_pos hp] at h
      obtain ⟨⟨v, s⟩, hm, hk⟩ := except_bind_ok h
      dsimp only at hk
      obtain ⟨h1, h2⟩ := callReadMethod_mono hm
      obtain ⟨h3, h4⟩ := ih _ _ _ hk
      exact ⟨h3.trans h1, h2.trans h4⟩
    · rw [if_neg hp] at h
      injection h with h'
      injection h' with ha hb
      rw [← hb]
      exact ⟨rfl, Nat.le_refl _⟩

/-! ## Paths: dot-separated components, structural ancestry -/

/-- `s` contains no `'.'` character. -/
def NoDot (s : String) : Prop := '.' ∉ s.data

instance (s : String) : Decidable (NoDot s) := by unfold NoDot; infer_instance

/-- `p` is a strict structural (dot) ancestor of `q`: `q` extends `p` by a
dot and more. -/
def isDotAncestor (p q : String) : Prop := ∃ s : String, q = p ++ "." ++ s

/-- `path` lies strictly below `bp`: it is `bp` joined with one nonempty
dot-free component, followed by an arbitrary remainder. -/
def PathFrom (bp path : String) : Prop :=
  ∃ comp rest, comp ≠ "" ∧ NoDot comp ∧ path = joinPath bp comp ++ rest

/-- Schemas whose field names are nonempty and dot-free, recursively through
nested message types. -/
inductive PType.Clean : PType → Prop where
  | intro (n : String) (fs : List PField)
      (hn : ∀ f ∈ fs, f.name ≠ "" ∧ NoDot f.name)
      (hm : ∀ f ∈ fs, ∀ m, f.resolvedType = .msg m → m.Clean) :
      PType.Clean (.mk n fs)

theorem str_data_append (a b : String) : (a ++ b).data = a.data ++ b.data := rfl

theorem str_append_assoc (a b c : String) : a ++ b ++ c = a ++ (b ++ c) :=
  String.ext (by simp only [str_data_append, List.append_assoc])

theorem str_ne_empty_iff {a : String} : a ≠ "" ↔ a.data ≠ [] := by
  constructor
  · intro h h'
    exact h (String.ext h')
  · intro h h'
    exact h (by rw [h'])

theorem noDot_append {a b : String} (ha : NoDot a) (hb : NoDot b) : NoDot (a ++ b) := by
  unfold NoDot at *
  rw [str_data_append]
  simp only [List.mem_append]
  rintro (h | h)
  · exact ha h
  · exact hb h

theorem append_ne_empty_left {a b : String} (h : a ≠ "") : a ++ b ≠ "" := by
  rw [str_ne_empty_iff] at h ⊢
  rw [str_data_append]
  simp [h]

theorem digitChar_ne_dot (m : Nat) : Nat.digitChar m ≠ '.' := by
  match m with
  | 0 | 1 | 2 | 3 | 4 | 5 | 6 | 7 | 8 | 9 | 10 | 11 | 12 | 13 | 14 | 15 => decide
  | n + 16 =>
    unfold Nat.digitChar
    repeat rw [if_neg (by omega)]
    decide

theorem toDigitsCore_ne_dot : ∀ (fuel n : Nat) (ds : List Char),
    (∀ c ∈ ds, c ≠ '.') → ∀ c ∈ Nat.toDigitsCore 10 fuel n ds, c ≠ '.' := by
  intro fuel
  induction fuel with
  | zero =>
    intro n ds hds c hc
    rw [Nat.toDigitsCore] at hc
    exact hds c hc
  | succ fuel ih =>
    intro n ds hds c hc
    rw [Nat.toDigitsCore] at hc
    have hcons : ∀ c ∈ Nat.digitChar (n % 10) :: ds, c ≠ '.' := by
      intro c hc'
      rcases List.mem_cons.mp hc' with h | h
      · rw [h]; exact digitChar_ne_dot _
      · exact hds c h
    split at hc
    · exact hcons c hc
    · exact ih _ _ hcons c hc

theorem noDot_toString (n : Nat) : NoDot (toString n) := by
  intro hc
  exact toDigitsCore_ne_dot (n + 1) n [] (by simp) '.' hc rfl

/-- Key boundary fact: if `u ++ '.' :: a = v ++ '.' :: b` and `b` is
dot-free, then the split at `u`'s dot happens at `v`'s dot or strictly
earlier — never inside `b`. -/
theorem dot_boundary : ∀ (u : List Char) {a : List Char} (v : List Char) {b : List Char},
    u ++ '.' :: a = v ++ '.' :: b → '.' ∉ b →
    u = v ∨ ∃ w, v = u ++ '.' :: w := by
  intro u
  induction u with
  | nil =>
    intro a v b h hb
    cases v with
    | nil => exact Or.inl rfl
    | cons c v' =>
      simp only [List.nil_append, List.cons_append, List.cons.injEq] at h
      exact Or.inr ⟨v', by rw [← h.1]; rfl⟩
  | cons c u' ih =>
    intro a v b h hb
    cases v with
    | nil =>
      simp only [List.cons_append, List.nil_append, List.cons.injEq] at h
      exact absurd (h.2 ▸ List.mem_append_right u' (List.mem_cons_self '.' a)) hb
    | cons d v' =>
      simp only [List.cons_append, List.cons.injEq] at h
      rcases ih v' h.2 hb with h1 | ⟨w, hw⟩
      · exact Or.inl (by rw [h.1, h1])
      · exact Or.inr ⟨w, by rw [← h.1, hw]; rfl⟩

theorem isDotAncestor_data {p q : String} :
    isDotAncestor p q ↔ ∃ l : List Char, q.data = p.data ++ '.' :: l := by
  constructor
  · rintro ⟨s, rfl⟩
    exact ⟨s.data, by simp [str_data_append]⟩
  · rintro ⟨l, hl⟩
    refine ⟨⟨l⟩, String.ext ?_⟩
    rw [hl]
    simp [str_data_append]

theorem not_isDotAncestor_empty (p : String) : ¬ isDotAncestor p "" := by
  rw [isDotAncestor_data]
  rintro ⟨l, hl⟩
  simp at hl

/-- A dot-ancestor of `bp` joined with one dot-free component is `bp` itself
or a dot-ancestor of `bp`. -/
theorem ancestor_joinPath {p bp comp : String} (hnd : NoDot comp)
    (h : isDotAncestor p (joinPath bp comp)) : p = bp ∨ isDotAncestor p bp := by
  unfold joinPath at h
  by_cases hbp : bp = ""
  · rw [if_pos hbp] at h
    rw [isDotAncestor_data] at h
    obtain ⟨l, hl⟩ := h
    exact absurd (hl ▸ List.mem_append_right p.data (List.mem_cons_self '.' l)) hnd
  · rw [if_neg hbp] at h
    rw [isDotAncestor_data] at h
    obtain ⟨l, hl⟩ := h
    have hl' : bp.data ++ '.' :: comp.data = p.data ++ '.' :: l := by
      rw [← hl]
      simp [str_data_append]
    rcases dot_boundary p.data bp.data hl'.symm (by simpa [NoDot] using hnd) with h1 | ⟨w, hw⟩
    · exact Or.inl (String.ext h1)
    · exact Or.inr (isDotAncestor_data.mpr ⟨w, hw⟩)

theorem joinPath_ne_empty {bp comp : String} (hc : comp ≠ "") : joinPath bp comp ≠ "" := by
  unfold joinPath
  split
  · exact hc
  · rename_i hbp
    exact append_ne_empty_left (append_ne_empty_left hbp)

theorem pathFrom_ne_empty {bp path : String} (h : PathFrom bp path) : path ≠ "" := by
  obtain ⟨comp, rest, hc, -, hp⟩ := h
  rw [hp]
  exact append_ne_empty_left (joinPath_ne_empty hc)

/-- Lifting: a path strictly below `joinPath bp comp` is strictly below
`bp` as well. -/
theorem pathFrom_join {bp comp path : String} (hc : comp ≠ "") (hnd : NoDot comp)
    (h : PathFrom (joinPath bp comp) path) : PathFrom bp path := by
  obtain ⟨comp', rest', hc', hnd', hp⟩ := h
  refine ⟨comp, "." ++ comp' ++ rest', hc, hnd, ?_⟩
  rw [hp]
  have hJne : joinPath bp comp ≠ "" := joinPath_ne_empty hc
  have hJ : joinPath (joinPath bp comp) comp' = joinPath bp comp ++ "." ++ comp' := by
    rw [joinPath, if_neg hJne]
  rw [hJ]
  apply String.ext
  simp [str_data_append, List.append_assoc]

/-- The path at `joinPath bp comp` itself is strictly below `bp`. -/
theorem pathFrom_self {bp comp : String} (hc : comp ≠ "") (hnd : NoDot comp) :
    PathFrom bp (joinPath bp comp) := by
  refine ⟨comp, "", hc, hnd, ?_⟩
  apply String.ext
  simp [str_data_append]

/-! ## Invariants of the emitted region blocks -/

/-- Every region of the block lies in `[lo, hi]` and has a nonempty span. -/
def BoundsInv (lo hi : Nat) (Δ : List ByteRegion) : Prop :=
  ∀ r ∈ Δ, lo ≤ r.start ∧ r.start < r.«end» ∧ r.«end» ≤ hi

/-- Every region of the block has a path strictly below `bp`. -/
def PathsInv (bp : String) (Δ : List ByteRegion) : Prop :=
  ∀ r ∈ Δ, PathFrom bp r.path

/-- Post-order covering: for any region `B` of the block and any strict dot
ancestor `p` of its path, either `p` is at or above the block's base path,
or a region with path `p` occurs later in the block and covers `B`'s span. -/
def CoverInv (bp : String) (Δ : List ByteRegion) : Prop :=
  ∀ Δ₁ B Δ₂, Δ = Δ₁ ++ B :: Δ₂ → ∀ p, isDotAncestor p B.path →
    (p = bp ∨ isDotAncestor p bp) ∨
    ∃ Δ₃ A Δ₄, Δ₂ = Δ₃ ++ A :: Δ₄ ∧ A.path = p ∧
      A.start ≤ B.start ∧ B.«end» ≤ A.«end»

theorem boundsInv_nil (lo hi : Nat) : BoundsInv lo hi [] := by
  intro r hr; cases hr

theorem pathsInv_nil (bp : String) : PathsInv bp [] := by
  intro r hr; cases hr

theorem coverInv_nil (bp : String) : CoverInv bp [] := by
  intro Δ₁ B Δ₂ h
  exact absurd h (by simp)

theorem boundsInv_weaken {lo hi lo' hi' : Nat} {Δ : List ByteRegion}
    (h : BoundsInv lo hi Δ) (h1 : lo' ≤ lo) (h2 : hi ≤ hi') : BoundsInv lo' hi' Δ := by
  intro r hr
  obtain ⟨a, b, c⟩ := h r hr
  exact ⟨Nat.le_trans h1 a, b, Nat.le_trans c h2⟩

theorem boundsInv_append {lo mid hi : Nat} {Δa Δb : List ByteRegion}
    (ha : BoundsInv lo mid Δa) (hb : BoundsInv mid hi Δb)
    (h1 : lo ≤ mid) (h2 : mid ≤ hi) : BoundsInv lo hi (Δa ++ Δb) := by
  intro r hr
  rcases List.mem_append.mp hr with h | h
  · exact (boundsInv_weaken ha (Nat.le_refl _) h2) r h
  · exact (boundsInv_weaken hb h1 (Nat.le_refl _)) r h

theorem pathsInv_append {bp : String} {Δa Δb : List ByteRegion}
    (ha : PathsInv bp Δa) (hb : PathsInv bp Δb) : PathsInv bp (Δa ++ Δb) := by
  intro r hr
  rcases List.mem_append.mp hr with h | h
  · exact ha r h
  · exact hb r h

theorem split_of_append {α : Type} : ∀ {la : List α} {lb m₁ m₂ : List α} {x : α},
    la ++ lb = m₁ ++ x :: m₂ →
    (∃ k, la = m₁ ++ x :: k ∧ m₂ = k ++ lb) ∨ (∃ k, m₁ = la ++ k ∧ lb = k ++ x :: m₂) := by
  intro la
  induction la with
  | nil =>
    intro lb m₁ m₂ x h
    exact Or.inr ⟨m₁, rfl, h⟩
  | cons a la ih =>
    intro lb m₁ m₂ x h
    cases m₁ with
    | nil =>
      simp only [List.cons_append, List.nil_append, List.cons.injEq] at h
      exact Or.inl ⟨la, by rw [h.1]; rfl, h.2.symm⟩
    | cons b m₁ =>
      simp only [List.cons_append, List.cons.injEq] at h
      rcases ih h.2 with ⟨k, hk1, hk2⟩ | ⟨k, hk1, hk2⟩
      · exact Or.inl ⟨k, by rw [h.1, hk1]; rfl, hk2⟩
      · exact Or.inr ⟨k, by rw [h.1, hk1]; rfl, hk2⟩

theorem singleton_split {α : Type} {x B : α} {l₁ l₂ : List α}
    (h : [x] = l₁ ++ B :: l₂) : l₁ = [] ∧ B = x ∧ l₂ = [] := by
  cases l₁ with
  | nil =>
    simp only [List.nil_append, List.cons.injEq] at h
    exact ⟨rfl, h.1.symm, h.2.symm⟩
  | cons a l =>
    simp only [List.cons_append, List.cons.injEq] at h
    exact absurd h.2.symm (by simp)

theorem coverInv_append {bp : String} {Δa Δb : List ByteRegion}
    (ha : CoverInv bp Δa) (hb : CoverInv bp Δb) : CoverInv bp (Δa ++ Δb) := by
  intro Δ₁ B Δ₂ hsplit p hanc
  rcases split_of_append hsplit with ⟨k, hk1, hk2⟩ | ⟨k, hk1, hk2⟩
  · rcases ha Δ₁ B k hk1 p hanc with h1 | ⟨Δ₃, A, Δ₄, hsp, hAp, hAs, hAe⟩
    · exact Or.inl h1
    · exact Or.inr ⟨Δ₃, A, Δ₄ ++ Δb, by rw [hk2, hsp]; simp, hAp, hAs, hAe⟩
  · exact hb k B Δ₂ hk2 p hanc

/-- A single region sitting exactly at `joinPath bp comp` covers nothing and
needs no cover: its ancestors are at or above `bp`. -/
theorem coverInv_single {R : ByteRegion} {bp comp : String}
    (hR : R.path = joinPath bp comp) (hnd : NoDot comp) : CoverInv bp [R] := by
  intro Δ₁ B Δ₂ hsplit p hanc
  obtain ⟨h1, h2, h3⟩ := singleton_split hsplit
  subst h2
  exact Or.inl (ancestor_joinPath hnd (hR ▸ hanc))

/-- The nested-message block: the recursion's regions followed by the
wrapper region, which spans them all and carries exactly the join path. -/
theorem coverInv_nested {Δn : List ByteRegion} {R : ByteRegion} {bp comp : String}
    {lo' hi' : Nat}
    (hbds : BoundsInv lo' hi' Δn)
    (hcov : CoverInv (joinPath bp comp) Δn)
    (hnd : NoDot comp)
    (hRp : R.path = joinPath bp comp)
    (hRs : R.start ≤ lo') (hRe : hi' ≤ R.«end») :
    CoverInv bp (Δn ++ [R]) := by
  intro Δ₁ B Δ₂ hsplit p hanc
  rcases split_of_append hsplit with ⟨k, hk1, hk2⟩ | ⟨k, hk1, hk2⟩
  · rcases hcov Δ₁ B k hk1 p hanc with h1 | ⟨Δ₃, A, Δ₄, hsp, hAp, hAs, hAe⟩
    · rcases h1 with h1 | h1
      · right
        have hBmem : B ∈ Δn := by rw [hk1]; simp
        obtain ⟨hB1, hB2, hB3⟩ := hbds B hBmem
        exact ⟨k, R, [], by rw [hk2], by rw [hRp, h1], Nat.le_trans hRs hB1,
          Nat.le_trans hB3 hRe⟩
      · exact Or.inl (ancestor_joinPath hnd h1)
    · exact Or.inr ⟨Δ₃, A, Δ₄ ++ [R], by rw [hk2, hsp]; simp, hAp, hAs, hAe⟩
  · obtain ⟨hk3, hk4, hk5⟩ := singleton_split hk2
    subst hk4
    exact Or.inl (ancestor_joinPath hnd (hRp ▸ hanc))

/-! ## Field names and paths produced by the decoder -/

theorem joinPath_append_right (bp a b : String) : joinPath bp (a ++ b) = joinPath bp a ++ b := by
  unfold joinPath
  split
  · rfl
  · apply String.ext
    simp [str_data_append, List.append_assoc]

theorem findField_mem {ty : PType} {fid : Nat} {f : PField}
    (h : findField ty fid = some f) : f ∈ ty.fields :=
  List.mem_of_find?_eq_some h

theorem clean_field {ty : PType} {f : PField} (hc : ty.Clean) (hf : f ∈ ty.fields) :
    f.name ≠ "" ∧ NoDot f.name := by
  cases hc with
  | intro n fs hn hm => exact hn f hf

theorem clean_msg {ty : PType} {f : PField} {m : PType} (hc : ty.Clean)
    (hf : f ∈ ty.fields) (hres : f.resolvedType = .msg m) : m.Clean := by
  cases hc with
  | intro n fs hn hm' => exact hm' f hf m hres

theorem unknownName_good (fid : Nat) :
    ("unknown_" ++ toString fid) ≠ "" ∧ NoDot ("unknown_" ++ toString fid) :=
  ⟨append_ne_empty_left (by decide), noDot_append (by decide) (noDot_toString fid)⟩

/-- Whatever the repeated/array state, `fieldPath` is `bp` joined with one
nonempty dot-free component. -/
theorem fieldPath_form (field : Option PField) (obj : Obj) (bp fn : String)
    (hne : fn ≠ "") (hnd : NoDot fn) :
    ∃ comp, comp ≠ "" ∧ NoDot comp ∧ fieldPath field obj bp fn = joinPath bp comp := by
  cases field with
  | none => exact ⟨fn, hne, hnd, rfl⟩
  | some f =>
    simp only [fieldPath]
    by_cases hr : f.repeated = true
    · rw [hr]
      simp only [if_true]
      cases hlk : lookupField obj fn with
      | none => exact ⟨fn, hne, hnd, rfl⟩
      | some v =>
        cases v with
        | vArr xs =>
          refine ⟨fn ++ "[" ++ toString xs.length ++ "]",
            append_ne_empty_left (append_ne_empty_left (append_ne_empty_left hne)),
            noDot_append (noDot_append (noDot_append hnd (by decide)) (noDot_toString _))
              (by decide), ?_⟩
          rw [joinPath_append_right, joinPath_append_right, joinPath_append_right]
        | vNull => exact ⟨fn, hne, hnd, rfl⟩
        | vInt n => exact ⟨fn, hne, hnd, rfl⟩
        | vBool b => exact ⟨fn, hne, hnd, rfl⟩
        | vStr s => exact ⟨fn, hne, hnd, rfl⟩
        | vBytes bs => exact ⟨fn, hne, hnd, rfl⟩
        | vMsg fs => exact ⟨fn, hne, hnd, rfl⟩
    · rw [Bool.not_eq_true] at hr
      rw [hr]
      simp only [Bool.false_eq_true, if_false]
      exact ⟨fn, hne, hnd, rfl⟩

theorem boundsInv_single {lo hi : Nat} {R : ByteRegion}
    (h1 : lo ≤ R.start) (h2 : R.start < R.«end») (h3 : R.«end» ≤ hi) :
    BoundsInv lo hi [R] := by
  intro r hr
  rw [List.mem_singleton] at hr
  subst hr
  exact ⟨h1, h2, h3⟩

theorem pathsInv_single {bp : String} {R : ByteRegion} {comp : String}
    (hc : comp ≠ "") (hnd : NoDot comp) (hp : R.path = joinPath bp comp) :
    PathsInv bp [R] := by
  intro r hr
  rw [List.mem_singleton] at hr
  subst hr
  rw [hp]
  exact pathFrom_self hc hnd

/-! ## The master invariant of `readMessage`

For every successful call (with the always-zero `globalOffset`), the new
regions appended by the call lie between the entry and exit cursor
positions, have nonempty spans, and — for clean schemas — carry paths
strictly below the call's base path, with every strict dot-ancestor of an
emitted path either at/above the base path or covered by a later region of
the block (post-order emission). -/

theorem readMessage_invariant : ∀ (fuel : Nat) (ty : PType) (endPos : Nat) (obj : Obj)
    (bp : String) (depth : Nat) (st : ReaderState) (regions : List ByteRegion)
    (obj' : Obj) (regions' : List ByteRegion) (st' : ReaderState),
    readMessage fuel ty endPos obj bp depth 0 st regions = .ok (obj', regions', st') →
    st'.buf = st.buf ∧ st.pos ≤ st'.pos ∧
    ∃ Δ, regions' = regions ++ Δ ∧ BoundsInv st.pos st'.pos Δ ∧
      (ty.Clean → PathsInv bp Δ ∧ CoverInv bp Δ) := by
  intro fuel
  induction fuel with
  | zero =>
    intro ty endPos obj bp depth st regions obj' regions' st' h
    exact Except.noConfusion h
  | succ fuel ih =>
    intro ty endPos obj bp depth st regions obj' regions' st' h
    rw [readMessage] at h
    by_cases hpos : st.pos < endPos
    case neg =>
      rw [if_neg hpos] at h
      injection h with h'
      injection h' with h1 h'
      injection h' with h2 h3
      subst h2
      subst h3
      exact ⟨rfl, Nat.le_refl _, [], by simp, boundsInv_nil _ _,
        fun _ => ⟨pathsInv_nil _, coverInv_nil _⟩⟩
    case pos =>
      rw [if_pos hpos] at h
      obtain ⟨⟨tag, st₁⟩, htag, h⟩ := except_bind_ok h
      dsimp only at h
      obtain ⟨hbuf₁, hpos₁⟩ := readUint32_mono htag
      have finishSimple : ∀ (OBJ : Obj) (stM : ReaderState) (R : ByteRegion),
          readMessage fuel ty endPos OBJ bp depth 0 stM (regions ++ [R]) =
            .ok (obj', regions', st') →
          stM.buf = st.buf → st.pos ≤ R.start → R.start < R.«end» → R.«end» ≤ stM.pos →
          (ty.Clean → ∃ comp, comp ≠ "" ∧ NoDot comp ∧ R.path = joinPath bp comp) →
          st'.buf = st.buf ∧ st.pos ≤ st'.pos ∧
          ∃ Δ, regions' = regions ++ Δ ∧ BoundsInv st.pos st'.pos Δ ∧
            (ty.Clean → PathsInv bp Δ ∧ CoverInv bp Δ) := by
        intro OBJ stM R htail hbufM h1 h2 h3 hgood
        obtain ⟨ihbuf, ihpos, Δr, hΔr, hbds, hclr⟩ :=
          ih ty endPos OBJ bp depth stM (regions ++ [R]) obj' regions' st' htail
        refine ⟨ihbuf.trans hbufM, by omega, R :: Δr, ?_, ?_, ?_⟩
        · rw [hΔr]; simp
        · exact boundsInv_append (boundsInv_single h1 h2 h3) hbds (by omega) ihpos
        · intro hcln
          obtain ⟨comp, hc, hnd, hpath⟩ := hgood hcln
          obtain ⟨hps, hcov⟩ := hclr hcln
          exact ⟨pathsInv_append (pathsInv_single hc hnd hpath) hps,
            coverInv_append (coverInv_single hpath hnd) hcov⟩
      cases hff : findField ty (tag / 8) with
      | none =>
        rw [hff] at h
        dsimp only at h
        obtain ⟨st₂, hsk, h⟩ := except_bind_ok h
        obtain ⟨hbuf₂, hpos₂⟩ := skipType_mono _ _ hsk
        refine finishSimple _ _ _ h (hbuf₂.trans hbuf₁) (Nat.le_refl _)
          (show st.pos < st₂.pos by omega) (Nat.le_refl _) ?_
        intro _
        exact ⟨"unknown_" ++ toString (tag / 8), (unknownName_good _).1,
          (unknownName_good _).2, rfl⟩
      | some f =>
        rw [hff] at h
        dsimp only at h
        generalize hFN : fieldNameOf (some f) (tag / 8) = FN at h
        generalize hOBJ : (if (f.repeated && jsFalsy (lookupField obj FN)) = true then
          setField obj FN (PValue.vArr []) else obj) = OBJ2 at h
        generalize hCP : fieldPath (some f) OBJ2 bp FN = CP at h
        have hFNf : FN = f.name := hFN.symm.trans rfl
        have hgoodCP : ty.Clean → ∃ comp, comp ≠ "" ∧ NoDot comp ∧ CP = joinPath bp comp := by
          intro hcln
          have hf := clean_field hcln (findField_mem hff)
          exact hCP ▸ fieldPath_form (some f) OBJ2 bp FN (by rw [hFNf]; exact hf.1)
            (by rw [hFNf]; exact hf.2)
        have hgoodFN : ty.Clean → FN ≠ "" ∧ NoDot FN := by
          intro hcln
          have hf := clean_field hcln (findField_mem hff)
          rw [hFNf]
          exact hf
        split at h
        case isTrue =>
          -- map field: skipped with a null value, one region
          obtain ⟨st₂, hsk, h⟩ := except_bind_ok h
          obtain ⟨hbuf₂, hpos₂⟩ := skipType_mono _ _ hsk
          refine finishSimple _ _ _ h (hbuf₂.trans hbuf₁) (Nat.le_refl _)
            (show st.pos < st₂.pos by omega) (Nat.le_refl _) hgoodCP
        case isFalse =>
          split at h
          case isTrue =>
            -- packed repeated field
            obtain ⟨⟨packedLen, st₂⟩, hplen, h⟩ := except_bind_ok h
            dsimp only at h
            obtain ⟨hbuf₂, hpos₂⟩ := readUint32_mono hplen
            generalize hOBJ3 : (if jsFalsy (lookupField OBJ2 FN) = true then
              setField OBJ2 FN (PValue.vArr []) else OBJ2) = OBJ3 at h
            cases hlk : lookupField OBJ3 FN with
            | none =>
              rw [hlk] at h
              dsimp only at h
              exact Except.noConfusion (except_bind_ok h).choose_spec.1
            | some v =>
              rw [hlk] at h
              cases v with
              | vArr xs =>
                dsimp only at h
                simp only [pure, Except.pure, okBind] at h
                obtain ⟨⟨arr, st₃⟩, hpl, h⟩ := except_bind_ok h
                dsimp only at h
                obtain ⟨hbuf₃, hpos₃⟩ := packedLoop_mono _ _ _ _ hpl
                refine finishSimple _ _ _ h (hbuf₃.trans (hbuf₂.trans hbuf₁))
                  (show st.pos ≤ st.pos + 0 by omega)
                  (show st.pos + 0 < st₃.pos + 0 by omega)
                  (show st₃.pos + 0 ≤ st₃.pos by omega) ?_
                intro hcln
                obtain ⟨hne, hnd⟩ := hgoodFN hcln
                exact ⟨FN, hne, hnd, rfl⟩
              | vNull =>
                dsimp only at h
                exact Except.noConfusion (except_bind_ok h).choose_spec.1
              | vInt n =>
                dsimp only at h
                exact Except.noConfusion (except_bind_ok h).choose_spec.1
              | vBool b =>
                dsimp only at h
                exact Except.noConfusion (except_bind_ok h).choose_spec.1
              | vStr s =>
                dsimp only at h
                exact Except.noConfusion (except_bind_ok h).choose_spec.1
              | vBytes bs =>
                dsimp only at h
                exact Except.noConfusion (except_bind_ok h).choose_spec.1
              | vMsg fs =>
                dsimp only at h
                exact Except.noConfusion (except_bind_ok h).choose_spec.1
          case isFalse =>
            split at h
            case h_1 _ _ m heq2 hres =>
              -- nested message field
              obtain ⟨⟨len, st₂⟩, hlen, h⟩ := except_bind_ok h
              dsimp only at h
              obtain ⟨hbuf₂, hpos₂⟩ := readUint32_mono hlen
              obtain ⟨⟨nestedObj, regionsN, st₃⟩, hnest, h⟩ := except_bind_ok h
              dsimp only at h
              obtain ⟨hbufN, hposN, ΔN, hΔN, hbdsN, hclN⟩ :=
                ih m (st₂.pos + len) [] CP (depth + 1) st₂ regions nestedObj regionsN st₃
                  hnest
              have finishNested : ∀ (OBJT : Obj),
                  readMessage fuel ty endPos OBJT bp depth 0 st₃ (regionsN ++
                    [⟨st.pos, st₃.pos, CP, .vMsg nestedObj, f.type, tag % 8, FN, depth⟩]) =
                    .ok (obj', regions', st') →
                  st'.buf = st.buf ∧ st.pos ≤ st'.pos ∧
                  ∃ Δ, regions' = regions ++ Δ ∧ BoundsInv st.pos st'.pos Δ ∧
                    (ty.Clean → PathsInv bp Δ ∧ CoverInv bp Δ) := by
                intro OBJT htail
                obtain ⟨hbufR, hposR, Δr, hΔr, hbdsR, hclR⟩ :=
                  ih ty endPos OBJT bp depth st₃ (regionsN ++
                    [⟨st.pos, st₃.pos, CP, .vMsg nestedObj, f.type, tag % 8, FN, depth⟩])
                    obj' regions' st' htail
                refine ⟨hbufR.trans (hbufN.trans (hbuf₂.trans hbuf₁)), by omega,
                  ΔN ++ ⟨st.pos, st₃.pos, CP, .vMsg nestedObj, f.type, tag % 8, FN, depth⟩
                    :: Δr, ?_, ?_, ?_⟩
                · rw [hΔr, hΔN]; simp
                · have hassoc : ΔN ++ (⟨st.pos, st₃.pos, CP, .vMsg nestedObj, f.type,
                      tag % 8, FN, depth⟩ : ByteRegion) :: Δr =
                      (ΔN ++ [⟨st.pos, st₃.pos, CP, .vMsg nestedObj, f.type, tag % 8, FN,
                        depth⟩]) ++ Δr := by simp
                  rw [hassoc]
                  have hbds1 : BoundsInv st.pos st₃.pos (ΔN ++
                      [⟨st.pos, st₃.pos, CP, .vMsg nestedObj, f.type, tag % 8, FN,
                        depth⟩]) := by
                    intro r hr
                    rcases List.mem_append.mp hr with hr | hr
                    · obtain ⟨a, b, c⟩ := hbdsN r hr
                      exact ⟨by omega, b, c⟩
                    · rw [List.mem_singleton] at hr
                      subst hr
                      exact ⟨Nat.le_refl _, show st.pos < st₃.pos by omega, Nat.le_refl _⟩
                  exact boundsInv_append hbds1 hbdsR (by omega) hposR
                · intro hcln
                  obtain ⟨comp, hc, hnd, hpath⟩ := hgoodCP hcln
                  have hcm : m.Clean := clean_msg hcln (findField_mem hff) hres
                  obtain ⟨hpsN, hcovN⟩ := hclN hcm
                  obtain ⟨hpsR, hcovR⟩ := hclR hcln
                  rw [hpath] at hpsN hcovN
                  have hassoc : ΔN ++ (⟨st.pos, st₃.pos, CP, .vMsg nestedObj, f.type,
                      tag % 8, FN, depth⟩ : ByteRegion) :: Δr =
                      (ΔN ++ [⟨st.pos, st₃.pos, CP, .vMsg nestedObj, f.type, tag % 8, FN,
                        depth⟩]) ++ Δr := by simp
                  rw [hassoc]
                  constructor
                  · refine pathsInv_append (pathsInv_append ?_
                      (pathsInv_single hc hnd hpath)) hpsR
                    intro r hr
                    exact pathFrom_join hc hnd (hpsN r hr)
                  · exact coverInv_append
                      (coverInv_nested hbdsN hcovN hnd hpath
                        (show st.pos ≤ st₂.pos by omega) (Nat.le_refl _)) hcovR
              split at h
              · obtain ⟨OBJT, hobjt, h⟩ := except_bind_ok h
                exact finishNested OBJT h
              · simp only [pure, Except.pure, okBind] at h
                exact finishNested _ h
            case h_2 =>
              -- scalar / string / bytes / enum / unsupported
              have finishScalar : ∀ (value : PValue) (st₂ : ReaderState),
                  st₂.buf = st₁.buf → st₁.pos ≤ st₂.pos →
                  (if f.repeated = true then do
                      let y ← pushToArray OBJ2 FN value
                      readMessage fuel ty endPos y bp depth 0 st₂ (regions ++
                        [⟨st.pos, st₂.pos, CP, value, f.type, tag % 8, FN, depth⟩])
                    else do
                      let y ← pure (setField OBJ2 FN value)
                      readMessage fuel ty endPos y bp depth 0 st₂ (regions ++
                        [⟨st.pos, st₂.pos, CP, value, f.type, tag % 8, FN, depth⟩])) =
                    Except.ok (obj', regions', st') →
                  st'.buf = st.buf ∧ st.pos ≤ st'.pos ∧
                  ∃ Δ, regions' = regions ++ Δ ∧ BoundsInv st.pos st'.pos Δ ∧
                    (ty.Clean → PathsInv bp Δ ∧ CoverInv bp Δ) := by
                intro value st₂ hbuf₂ hpos₂ hv
                split at hv
                · obtain ⟨OBJT, hobjt, hv⟩ := except_bind_ok hv
                  exact finishSimple _ _ _ hv (hbuf₂.trans hbuf₁) (Nat.le_refl _)
                    (show st.pos < st₂.pos by omega) (Nat.le_refl _) hgoodCP
                · simp only [pure, Except.pure, okBind] at hv
                  exact finishSimple _ _ _ hv (hbuf₂.trans hbuf₁) (Nat.le_refl _)
                    (show st.pos < st₂.pos by omega) (Nat.le_refl _) hgoodCP
              split at h
              · -- a primitive reader method
                obtain ⟨⟨value, st₂⟩, hcall, h⟩ := except_bind_ok h
                dsimp only at h
                obtain ⟨hbuf₂, hpos₂⟩ := callReadMethod_mono hcall
                exact finishScalar value st₂ hbuf₂ hpos₂ h
              · split at h
                · -- enum fallback: int32 read
                  obtain ⟨⟨v0, st₂⟩, hri, h⟩ := except_bind_ok h
                  dsimp only at h
                  simp only [pure, Except.pure, okBind] at h
                  obtain ⟨hbuf₂, hpos₂⟩ := readInt32_mono hri
                  exact finishScalar _ st₂ hbuf₂ (Nat.le_of_lt hpos₂) h
                · -- unsupported type: skip with placeholder
                  obtain ⟨st₂, hsk, h⟩ := except_bind_ok h
                  simp only [pure, Except.pure, okBind] at h
                  obtain ⟨hbuf₂, hpos₂⟩ := skipType_mono _ _ hsk
                  exact finishScalar _ st₂ hbuf₂ hpos₂ h

/-- The top-level consequence of the master invariant, shared by the
containment (C4) and ordering (C7) theorems: under a clean schema and
duplicate-free paths, the unique region whose path is a strict dot-ancestor
of `B`'s path both covers `B`'s span and appears after `B` in the list. -/
theorem decode_cover {ty : PType} {buffer : List Nat} {res : Obj}
    {regions : List ByteRegion}
    (hdec : decodeWithRegions ty buffer = .ok (res, regions))
    (hclean : ty.Clean)
    (hnodup : (regions.map ByteRegion.path).Nodup)
    {A B : ByteRegion} (hA : A ∈ regions) (hB : B ∈ regions)
    (hanc : isDotAncestor A.path B.path) :
    (A.start ≤ B.start ∧ B.«end» ≤ A.«end») ∧
    ∃ l₁ l₂, regions = l₁ ++ A :: l₂ ∧ B ∈ l₁ := by
  unfold decodeWithRegions at hdec
  cases hrm : readMessage (buffer.length + 1) ty buffer.length [] "" 0 0 ⟨buffer, 0⟩ [] with
  | error e => rw [hrm] at hdec; exact Except.noConfusion hdec
  | ok out =>
    obtain ⟨resO, regionsO, stF⟩ := out
    rw [hrm] at hdec
    injection hdec with hdec
    injection hdec with h1 h2
    subst h2
    obtain ⟨-, -, Δ, hΔ, hbds, hcl⟩ :=
      readMessage_invariant _ _ _ _ _ _ _ _ _ _ _ hrm
    rw [List.nil_append] at hΔ
    subst hΔ
    obtain ⟨hps, hcov⟩ := hcl hclean
    obtain ⟨l₁, l₂, hsplit⟩ := List.append_of_mem hB
    rcases hcov l₁ B l₂ hsplit A.path hanc with (hd1 | hd1) | ⟨Δ₃, A', Δ₄, hsp, hA'p, hA's, hA'e⟩
    · exact absurd hd1 (pathFrom_ne_empty (hps A hA))
    · exact absurd hd1 (not_isDotAncestor_empty _)
    · have hA'mem : A' ∈ regionsO := by
        rw [hsplit, hsp]
        simp
      have hAA' : A = A' := by
        have := List.inj_on_of_nodup_map hnodup
        exact this hA hA'mem hA'p.symm
      subst hAA'
      refine ⟨⟨hA's, hA'e⟩, l₁ ++ B :: Δ₃, Δ₄, ?_, ?_⟩
      · rw [hsplit, hsp]
        simp
      · simp

/-- C3: every region of a successful decode has `start < end` — for every
schema and every buffer. -/
theorem claim_C3_positiveSpans (ty : PType) (buffer : List Nat) (res : Obj)
    (regions : List ByteRegion)
    (h : decodeWithRegions ty buffer = .ok (res, regions)) :
    ∀ r ∈ regions, r.start < r.«end» := by
  unfold decodeWithRegions at h
  cases hrm : readMessage (buffer.length + 1) ty buffer.length [] "" 0 0 ⟨buffer, 0⟩ [] with
  | error e => rw [hrm] at h; exact Except.noConfusion h
  | ok out =>
    obtain ⟨resO, regionsO, stF⟩ := out
    rw [hrm] at h
    injection h with h'
    injection h' with h1 h2
    subst h2
    obtain ⟨-, -, Δ, hΔ, hbds, -⟩ := readMessage_invariant _ _ _ _ _ _ _ _ _ _ _ hrm
    rw [List.nil_append] at hΔ
    subst hΔ
    intro r hr
    exact (hbds r hr).2.1

/-- C3 witness: the name-field region of the concrete scenario. -/
theorem claim_C3_witness :
    (⟨0, 4, "name", .vStr "Al", "string", 2, "name", 0⟩ : ByteRegion).start <
      (⟨0, 4, "name", .vStr "Al", "string", 2, "name", 0⟩ : ByteRegion).«end» :=
  claim_C3_positiveSpans schemaStrInt [0x0A, 0x02, 0x41, 0x6C, 0x10, 0x07]
    [("name", .vStr "Al"), ("id", .vInt 7)]
    [⟨0, 4, "name", .vStr "Al", "string", 2, "name", 0⟩,
     ⟨4, 6, "id", .vInt 7, "int32", 0, "id", 0⟩] rfl
    ⟨0, 4, "name", .vStr "Al", "string", 2, "name", 0⟩ (by simp)

theorem schemaInner_clean : schemaInner.Clean := by
  refine PType.Clean.intro _ _ (by decide) ?_
  intro f hf m hm
  simp only [schemaInner, PType.fields, List.mem_singleton] at hf
  subst hf
  simp only [PField.resolvedType] at hm
  exact PResolved.noConfusion hm

theorem schemaNested_clean : schemaNested.Clean := by
  refine PType.Clean.intro _ _ (by decide) ?_
  intro f hf m hm
  simp only [schemaNested, PType.fields, List.mem_singleton] at hf
  subst hf
  simp only [PField.resolvedType] at hm
  injection hm with hm
  rw [← hm]
  exact schemaInner_clean

/-- C4 amended: nesting containment holds for clean schemas (nonempty,
dot-free field names) and duplicate-free region paths: if `A`'s path
extended by a dot is a prefix of `B`'s path, then `A`'s span contains
`B`'s. -/
theorem claim_C4_amended (ty : PType) (buffer : List Nat) (res : Obj)
    (regions : List ByteRegion)
    (hdec : decodeWithRegions ty buffer = .ok (res, regions))
    (hclean : ty.Clean)
    (hnodup : (regions.map ByteRegion.path).Nodup)
    (A B : ByteRegion) (hA : A ∈ regions) (hB : B ∈ regions)
    (hanc : isDotAncestor A.path B.path) :
    A.start ≤ B.start ∧ B.«end» ≤ A.«end» :=
  (decode_cover hdec hclean hnodup hA hB hanc).1

/-- C4 witness: the nested scenario, parent region `m` and child region
`m.x`. -/
theorem claim_C4_witness :
    (⟨0, 4, "m", .vMsg [("x", .vInt 7)], "M", 2, "m", 0⟩ : ByteRegion).start ≤
      (⟨2, 4, "m.x", .vInt 7, "int32", 0, "x", 1⟩ : ByteRegion).start ∧
    (⟨2, 4, "m.x", .vInt 7, "int32", 0, "x", 1⟩ : ByteRegion).«end» ≤
      (⟨0, 4, "m", .vMsg [("x", .vInt 7)], "M", 2, "m", 0⟩ : ByteRegion).«end» :=
  claim_C4_amended schemaNested [0x0A, 0x02, 0x08, 0x07]
    [("m", .vMsg [("x", .vInt 7)])]
    [⟨2, 4, "m.x", .vInt 7, "int32", 0, "x", 1⟩,
     ⟨0, 4, "m", .vMsg [("x", .vInt 7)], "M", 2, "m", 0⟩] rfl
    schemaNested_clean (by decide)
    ⟨0, 4, "m", .vMsg [("x", .vInt 7)], "M", 2, "m", 0⟩
    ⟨2, 4, "m.x", .vInt 7, "int32", 0, "x", 1⟩ (by simp) (by simp) ⟨"x", rfl⟩

/-- C4 counterexample: when the singular message field 1 occurs twice, the
second occurrence's region has path `m`, a strict structural ancestor of
the first occurrence's child path `m.x`, yet its span `[4, 8)` does not
contain the child's span `[2, 4)`. -/
theorem claim_C4_counterexample :
    decodeWithRegions schemaNested [0x0A, 0x02, 0x08, 0x01, 0x0A, 0x02, 0x08, 0x02] =
      .ok ([("m", .vMsg [("x", .vInt 2)])],
        [⟨2, 4, "m.x", .vInt 1, "int32", 0, "x", 1⟩,
         ⟨0, 4, "m", .vMsg [("x", .vInt 1)], "M", 2, "m", 0⟩,
         ⟨6, 8, "m.x", .vInt 2, "int32", 0, "x", 1⟩,
         ⟨4, 8, "m", .vMsg [("x", .vInt 2)], "M", 2, "m", 0⟩]) ∧
    isDotAncestor (⟨4, 8, "m", .vMsg [("x", .vInt 2)], "M", 2, "m", 0⟩ : ByteRegion).path
      (⟨2, 4, "m.x", .vInt 1, "int32", 0, "x", 1⟩ : ByteRegion).path ∧
    ¬ ((⟨4, 8, "m", .vMsg [("x", .vInt 2)], "M", 2, "m", 0⟩ : ByteRegion).start ≤
       (⟨2, 4, "m.x", .vInt 1, "int32", 0, "x", 1⟩ : ByteRegion).start) :=
  ⟨rfl, ⟨"x", rfl⟩, by decide⟩

/-- C7 amended: emission is post-order depth-first, not pre-order: for clean
schemas and duplicate-free paths, a region whose path is a strict
structural ancestor of another region's path appears in the flat list
after it — in particular a nested message field's own region appears after
the regions of the fields decoded inside it. -/
theorem claim_C7_amended (ty : PType) (buffer : List Nat) (res : Obj)
    (regions : List ByteRegion)
    (hdec : decodeWithRegions ty buffer = .ok (res, regions))
    (hclean : ty.Clean)
    (hnodup : (regions.map ByteRegion.path).Nodup)
    (A B : ByteRegion) (hA : A ∈ regions) (hB : B ∈ regions)
    (hanc : isDotAncestor A.path B.path) :
    ∃ l₁ l₂, regions = l₁ ++ A :: l₂ ∧ B ∈ l₁ :=
  (decode_cover hdec hclean hnodup hA hB hanc).2

/-- C7 witness: in the nested scenario the parent region `m` appears after
the child region `m.x`. -/
theorem claim_C7_witness :
    ∃ l₁ l₂,
      [(⟨2, 4, "m.x", .vInt 7, "int32", 0, "x", 1⟩ : ByteRegion),
       ⟨0, 4, "m", .vMsg [("x", .vInt 7)], "M", 2, "m", 0⟩] =
        l₁ ++ (⟨0, 4, "m", .vMsg [("x", .vInt 7)], "M", 2, "m", 0⟩ : ByteRegion) :: l₂ ∧
      (⟨2, 4, "m.x", .vInt 7, "int32", 0, "x", 1⟩ : ByteRegion) ∈ l₁ :=
  claim_C7_amended schemaNested [0x0A, 0x02, 0x08, 0x07]
    [("m", .vMsg [("x", .vInt 7)])]
    [⟨2, 4, "m.x", .vInt 7, "int32", 0, "x", 1⟩,
     ⟨0, 4, "m", .vMsg [("x", .vInt 7)], "M", 2, "m", 0⟩] rfl
    schemaNested_clean (by decide)
    ⟨0, 4, "m", .vMsg [("x", .vInt 7)], "M", 2, "m", 0⟩
    ⟨2, 4, "m.x", .vInt 7, "int32", 0, "x", 1⟩ (by simp) (by simp) ⟨"x", rfl⟩
